import Mathlib

/-!
Verification development for the Country→Discipline→Gender Sankey pipeline
(React charts `CountryDisciplineGenderSankey.tsx` of Homework2/Homework3 and
the sibling charts).  The graph-construction path is embedded shallowly:
JS strings become Lean `String`, JS arrays become `List`, the insertion-ordered
JS `Map` becomes an association list, and `useMemo` recomputation becomes a
pure function from `(data, topCountries, topDisciplines, selectedCountry)`
to a `FlowGraph`.
-/

namespace Sankey

/-- Whitespace predicate used to model JavaScript `String.prototype.trim`. -/
def wsChar (c : Char) : Bool := c.isWhitespace

/-- Trim on the character-list level: drop leading and trailing whitespace,
modelling JS `trim()`. -/
def jsTrimL (l : List Char) : List Char :=
  ((l.dropWhile wsChar).reverse.dropWhile wsChar).reverse

/-- JS `s.trim()` on `String`. -/
def jsTrim (s : String) : String := String.mk (jsTrimL s.data)

/-- `clean(v, fallback)` from the Sankey sources: coerce (`v ?? ""`), trim,
and substitute the fallback when the result is empty. -/
def clean (v : Option String) (fallback : String) : String :=
  let s := jsTrim (v.getD "")
  if s = "" then fallback else s

/-- The separator character class `[,;|/]` of `splitDisciplines`. -/
def sepChar (c : Char) : Bool := c = ',' || c = ';' || c = '|' || c = '/'

/-- Prepend a character onto the first group of a split result
(`[[c]]` when there is no group yet). -/
def consHead (c : Char) : List (List Char) → List (List Char)
  | [] => [[c]]
  | a :: as => (c :: a) :: as

/-- JS `String.prototype.split` with a character-class regex: cut the string at
every separator character, keeping empty pieces (so `"".split` gives `[""]`). -/
def splitChars (p : Char → Bool) : List Char → List (List Char)
  | [] => [[]]
  | c :: cs => if p c then [] :: splitChars p cs else consHead c (splitChars p cs)

/-- `splitDisciplines` from `CountryDisciplineGenderSankey.tsx`: split on
`[,;|/]`, trim each piece, drop empty pieces (`filter(Boolean)`), and fall back
to the single original string when nothing remains. -/
def splitDisciplines (s : String) : List String :=
  let parts := ((splitChars sepChar s.data).map
      (fun l => String.mk (jsTrimL l))).filter (fun x => x ≠ "")
  if parts = [] then [s] else parts

/-- The single-quote character, written via its code point. -/
def sqChar : Char := Char.ofNat 39

/-- Scan up to the next single quote: returns the characters before it and the
remainder after it, or `none` when no quote follows. -/
def takeToQuote : List Char → Option (List Char × List Char)
  | [] => none
  | c :: cs =>
    if c = sqChar then some ([], cs)
    else match takeToQuote cs with
      | none => none
      | some (a, r) => some (c :: a, r)

/-- Fuel-driven scan for the regex `'([^']+)'` used by
`parseDisciplinesField` in the Homework2 scatter chart: all maximal non-empty
runs of non-quote characters enclosed in single quotes, left to right. -/
def quotedItemsAux : Nat → List Char → List String
  | 0, _ => []
  | _ + 1, [] => []
  | fuel + 1, c :: rest =>
    if c = sqChar then
      match takeToQuote rest with
      | some (content, rm) =>
        if content = [] then quotedItemsAux fuel rest
        else String.mk content :: quotedItemsAux fuel rm
      | none => []
    else quotedItemsAux fuel rest

/-- The single-quoted substrings of `s` (the `matchAll(/'([^']+)'/g)` captures). -/
def quotedItems (s : String) : List String :=
  quotedItemsAux s.data.length s.data

/-- Candidate algorithm stated by the claim for the category exploder: first
extract single-quoted items (trimmed, joined into one comma-separated label);
otherwise split on the separator class as `splitDisciplines` does.  This
definition follows the claim's words and exists to be compared with the
source's `splitDisciplines`. -/
def explodeClaimTwoPath (s : String) : List String :=
  let q := quotedItems s
  if q ≠ [] then
    [String.intercalate ", " (q.map jsTrim)]
  else
    let parts := ((splitChars sepChar s.data).map
        (fun l => String.mk (jsTrimL l))).filter (fun x => x ≠ "")
    if parts = [] then [s] else parts

/-- Strip one leading `[` and one trailing `]` (the regex
`replace(/^\\[|\\]$/g, "")` of `parseDisciplinesField`). -/
def stripListBrackets (l : List Char) : List Char :=
  let l1 := match l with
    | '[' :: rest => rest
    | _ => l
  if l1.getLast? = some ']' then l1.dropLast else l1

/-- `parseDisciplinesField` from the Homework2 scatter chart: trim and
fall back to `"Unknown"` when blank; join the single-quoted items into one
comma-separated label when any exist; otherwise strip list brackets and
double quotes and trim. -/
def parseDisciplinesField (v : Option String) : String :=
  let s := jsTrim (v.getD "")
  if s = "" then "Unknown"
  else
    let ms := (quotedItems s).map jsTrim
    if ms ≠ [] then String.intercalate ", " ms
    else jsTrim (String.mk ((stripListBrackets s.data).filter (fun c => c ≠ '"')))

/-! ### Insertion-ordered counting and top-N selection (d3.rollup + sort + slice) -/

/-- First occurrences of each value, in encounter order — the key order of a
`d3.rollup` / JS `Map` / JS `Set`. -/
def firstOccs : List String → List String
  | [] => []
  | x :: xs => x :: (firstOccs xs).filter (fun y => y ≠ x)

/-- Number of occurrences of `a` in `l`. -/
def countOcc (a : String) (l : List String) : Nat :=
  (l.filter (fun x => x == a)).length

/-- `d3.rollup(l, v => v.length, id)` materialised with `Array.from`: one
`(key, count)` pair per distinct key, in first-seen order. -/
def rollupCounts (l : List String) : List (String × Nat) :=
  (firstOccs l).map (fun k => (k, countOcc k l))

/-- Stable insertion of one `(key, count)` pair: the new pair goes in front of
the first existing pair with a smaller-or-equal count, so that among equal
counts the earlier-inserted pair stays first. -/
def insCnt (p : String × Nat) : List (String × Nat) → List (String × Nat)
  | [] => [p]
  | q :: qs => if q.2 ≤ p.2 then p :: q :: qs else q :: insCnt p qs

/-- Stable sort by descending count, modelling the (stable) JS
`sort((a, b) => d3.descending(a.v, b.v))`. -/
def sortCnt : List (String × Nat) → List (String × Nat)
  | [] => []
  | p :: ps => insCnt p (sortCnt ps)

/-- Top-N frequency selector: count per key, sort descending (stable),
`slice(0, n)`, keep the keys. -/
def topNKeys (n : Nat) (l : List String) : List String :=
  ((sortCnt (rollupCounts l)).take n).map Prod.fst


/-! ### Data model -/

/-- A raw input record (loosely-typed `AthleteRow`); absent fields are `none`. -/
structure Row where
  country : Option String
  disciplines : Option String
  gender : Option String
deriving DecidableEq

/-- A sanitized record (the element of `cleaned`). -/
structure CRow where
  country : String
  disciplineRaw : String
  gender : String
deriving DecidableEq

/-- An exploded record: one atomic discipline label per row. -/
structure ERow where
  country : String
  discipline : String
  gender : String
deriving DecidableEq

/-- A link still carrying its endpoint labels (the `linksNamed` stage). -/
structure NamedLink where
  source : String
  target : String
  value : Nat
deriving DecidableEq

/-- A final link with resolved indices; `idx.get` can miss, which the source
papers over with a non-null assertion, so indices are `Option Nat` here. -/
structure IdxLink where
  source : Option Nat
  target : Option Nat
  value : Nat
deriving DecidableEq

/-- The immutable graph snapshot `{nodes, links}` handed to the renderer. -/
structure FlowGraph where
  nodes : List String
  links : List IdxLink
deriving DecidableEq

/-! ### Pipeline stages (Homework3 variant) -/

/-- Row sanitizer: one raw record to one cleaned record, with the three fixed
fallback labels. -/
def cleanRow (d : Row) : CRow :=
  { country := clean d.country "Unknown Country"
    disciplineRaw := clean d.disciplines "Unknown Discipline"
    gender := clean d.gender "Unknown" }

/-- Stage 1 of the `useMemo` pipeline: `cleaned`. -/
def cleanedRows (data : List Row) : List CRow := data.map cleanRow

/-- JS truthiness of `selectedCountry` (`null` and `""` are falsy). -/
def focusActive (sc : Option String) : Bool :=
  match sc with
  | none => false
  | some s => s ≠ ""

/-- The focus string compared against (`d.country === selectedCountry`). -/
def focusVal (sc : Option String) : String := sc.getD ""

/-- Stage 2: `base` — when a country is selected, restrict to it; otherwise
pass everything through. -/
def baseRows (data : List Row) (sc : Option String) : List CRow :=
  if focusActive sc then
    (cleanedRows data).filter (fun d => d.country == focusVal sc)
  else cleanedRows data

/-- Stage 3 (unfocused only): `topCountrySet`, the top-N countries of `base`
by record count. -/
def topCountrySetOf (data : List Row) (sc : Option String) (tc : Nat) : List String :=
  topNKeys tc ((baseRows data sc).map (·.country))

/-- Stage 3 result: `filteredCountries` — the top-N membership filter runs only
when no country is selected. -/
def filteredRows (data : List Row) (tc : Nat) (sc : Option String) : List CRow :=
  if focusActive sc then baseRows data sc
  else (baseRows data sc).filter
    (fun d => (topCountrySetOf data sc tc).contains d.country)

/-- Stage 4: `exploded` — one record per atomic discipline label. -/
def explodedRows (data : List Row) (tc : Nat) (sc : Option String) : List ERow :=
  (filteredRows data tc sc).flatMap
    (fun d => (splitDisciplines d.disciplineRaw).map
      (fun disc => { country := d.country, discipline := disc, gender := d.gender }))

/-- Stage 5: `topDiscSet`, the top-M disciplines of the exploded rows. -/
def topDiscSetOf (data : List Row) (tc td : Nat) (sc : Option String) : List String :=
  topNKeys td ((explodedRows data tc sc).map (·.discipline))

/-- Stage 5 result: `finalRows`. -/
def finalRowsOf (data : List Row) (tc td : Nat) (sc : Option String) : List ERow :=
  (explodedRows data tc sc).filter
    (fun d => (topDiscSetOf data tc td sc).contains d.discipline)

/-- The tier-prefixed country label `C: …`. -/
def cLab (r : ERow) : String := "C: " ++ r.country

/-- The tier-prefixed discipline label `D: …`. -/
def dLab (r : ERow) : String := "D: " ++ r.discipline

/-- The tier-prefixed gender label `G: …`. -/
def gLab (r : ERow) : String := "G: " ++ r.gender

/-- The composite-key separator of `addLink`. -/
def barsStr : String := "|||"

/-- The composite key `source|||target`. -/
def mkKey (s t : String) : String := s ++ barsStr ++ t

/-- The two composite keys one final row feeds into `addLink`. -/
def contribKeys (r : ERow) : List String :=
  [mkKey (cLab r) (dLab r), mkKey (dLab r) (gLab r)]

/-- `linksMap.set(key, (linksMap.get(key) ?? 0) + 1)` on an insertion-ordered
association list. -/
def bump1 (m : List (String × Nat)) (k : String) : List (String × Nat) :=
  if m.any (fun p => p.1 == k) then
    m.map (fun p => if p.1 == k then (p.1, p.2 + 1) else p)
  else m ++ [(k, 1)]

/-- Stage 6: `linksMap` — fold the two `addLink` calls of every final row. -/
def linksMapOf (data : List Row) (tc td : Nat) (sc : Option String) :
    List (String × Nat) :=
  (finalRowsOf data tc td sc).foldl
    (fun m r => bump1 (bump1 m (mkKey (cLab r) (dLab r))) (mkKey (dLab r) (gLab r))) []

/-- JS `key.split("|||")` on the character level: cut at every occurrence of
three consecutive bars, leftmost first, non-overlapping. -/
def splitOnBarsL : List Char → List (List Char)
  | [] => [[]]
  | '|' :: '|' :: '|' :: rest => [] :: splitOnBarsL rest
  | c :: cs => consHead c (splitOnBarsL cs)

/-- `const [source, target] = key.split("|||")`. -/
def splitKey (k : String) : String × String :=
  let ps := (splitOnBarsL k.data).map String.mk
  (ps.headD "", (ps.drop 1).headD "")

/-- Stage 6 result: `linksNamed` — one named link per map entry, endpoints
recovered by splitting the composite key. -/
def linksNamedOf (data : List Row) (tc td : Nat) (sc : Option String) :
    List NamedLink :=
  (linksMapOf data tc td sc).map
    (fun kv => { source := (splitKey kv.1).1, target := (splitKey kv.1).2, value := kv.2 })

/-- Stage 7: `nodeNames` — distinct endpoint labels in encounter order
(`Array.from(new Set(...))`). -/
def nodeNamesOf (data : List Row) (tc td : Nat) (sc : Option String) : List String :=
  firstOccs ((linksNamedOf data tc td sc).flatMap (fun l => [l.source, l.target]))

/-- `n.startsWith("C: ")`. -/
def startsC (n : String) : Bool := n.data.take 3 == ['C', ':', ' ']

/-- `n.startsWith("D: ")`. -/
def startsD (n : String) : Bool := n.data.take 3 == ['D', ':', ' ']

/-- `n.startsWith("G: ")`. -/
def startsG (n : String) : Bool := n.data.take 3 == ['G', ':', ' ']

/-- Code-point comparison of two character lists, the order behind the default
JS array sort on these label strings. -/
def leChars : List Char → List Char → Bool
  | [], _ => true
  | _ :: _, [] => false
  | a :: as, b :: bs =>
    if a.toNat < b.toNat then true
    else if b.toNat < a.toNat then false
    else leChars as bs

/-- Lexicographic order on labels. -/
def labelLe (s t : String) : Bool := leChars s.data t.data

/-- Insert a label into an already sorted list of labels. -/
def insLabel (x : String) : List String → List String
  | [] => [x]
  | y :: ys => if labelLe x y then x :: y :: ys else y :: insLabel x ys

/-- The default JS `Array.prototype.sort()` on distinct label strings. -/
def labelSort : List String → List String
  | [] => []
  | x :: xs => insLabel x (labelSort xs)

/-- Stage 7 result: `ordered` / `nodes` — the three tier buckets, each sorted,
concatenated in fixed order. -/
def nodesOf (data : List Row) (tc td : Nat) (sc : Option String) : List String :=
  let names := nodeNamesOf data tc td sc
  labelSort (names.filter startsC) ++ labelSort (names.filter startsD) ++
    labelSort (names.filter startsG)

/-- The `idx` map lookup: position of a name in `nodes`, if any. -/
def idxOf (name : String) : List String → Option Nat
  | [] => none
  | n :: ns => if n = name then some 0 else (idxOf name ns).map (· + 1)

/-- Stage 8: `links` — endpoints rewritten as indices into `nodes`. -/
def linksOf (data : List Row) (tc td : Nat) (sc : Option String) : List IdxLink :=
  let nodes := nodesOf data tc td sc
  (linksNamedOf data tc td sc).map
    (fun l => { source := idxOf l.source nodes, target := idxOf l.target nodes,
                value := l.value })

/-- The whole Homework3 `useMemo` pipeline:
`(data, topCountries, topDisciplines, selectedCountry) ↦ {nodes, links}`. -/
def sankeyGraph (data : List Row) (tc td : Nat) (sc : Option String) : FlowGraph :=
  { nodes := nodesOf data tc td sc, links := linksOf data tc td sc }

/-- The Homework2 `useMemo` pipeline: identical stages but no
`selectedCountry` input and hence no focus branch. -/
def hw2Graph (data : List Row) (tc td : Nat) : FlowGraph :=
  let cleaned := cleanedRows data
  let tset := topNKeys tc (cleaned.map (·.country))
  let filtered := cleaned.filter (fun d => tset.contains d.country)
  let exploded := filtered.flatMap
    (fun d => (splitDisciplines d.disciplineRaw).map
      (fun disc => ({ country := d.country, discipline := disc, gender := d.gender } : ERow)))
  let dset := topNKeys td (exploded.map (·.discipline))
  let finalRows := exploded.filter (fun d => dset.contains d.discipline)
  let lm := finalRows.foldl
    (fun m r => bump1 (bump1 m (mkKey (cLab r) (dLab r))) (mkKey (dLab r) (gLab r))) []
  let ln := lm.map
    (fun kv => ({ source := (splitKey kv.1).1, target := (splitKey kv.1).2,
                  value := kv.2 } : NamedLink))
  let names := firstOccs (ln.flatMap (fun l => [l.source, l.target]))
  let nodes := labelSort (names.filter startsC) ++ labelSort (names.filter startsD) ++
    labelSort (names.filter startsG)
  { nodes := nodes,
    links := ln.map (fun l => { source := idxOf l.source nodes,
                                target := idxOf l.target nodes, value := l.value }) }

/-- The bar-chart click handler
`onSelectCountry(selectedCountry === d.country ? null : d.country)`. -/
def toggleSelect (cur : Option String) (clicked : String) : Option String :=
  if cur = some clicked then none else some clicked

/-- The input multiset doubled: every record repeated twice. -/
def doubleData (data : List Row) : List Row := data.flatMap (fun r => [r, r])


/-! ### Basic facts about the key separator split -/

/-- A label that contains no bar character; such labels survive the
`source|||target` round trip intact. -/
def barFree (s : String) : Prop := '|' ∉ s.data

instance (s : String) : Decidable (barFree s) := by
  unfold barFree; infer_instance

/-- Prepend a character list onto the first group of a split result. -/
def prepGroup (s : List Char) : List (List Char) → List (List Char)
  | [] => [s]
  | a :: as => (s ++ a) :: as

/-- A list assembled from a per-record presentation, every block repeated
twice — the shape every pipeline stage takes on a doubled input. -/
def ddOf {α β : Type} (f : α → List β) (l : List α) : List β :=
  l.flatMap (fun r => f r ++ f r)

/-! ### Per-record presentations of the pipeline stages

Each stage of the pipeline is a `flatMap` of a per-record contribution over the
raw data; on the doubled input the same contribution appears twice per record.
These presentations drive the doubling argument. -/

/-- Per-record contribution to `cleaned`. -/
def rowF (r : Row) : List CRow := [cleanRow r]

/-- Per-record contribution to `base`. -/
def baseF (sc : Option String) (r : Row) : List CRow :=
  if focusActive sc then (rowF r).filter (fun d => d.country == focusVal sc)
  else rowF r

/-- Per-record contribution to `filteredCountries` (the top-N set is that of
the original input; the doubling argument shows the doubled input selects the
same set). -/
def filtF (data : List Row) (tc : Nat) (sc : Option String) (r : Row) : List CRow :=
  if focusActive sc then baseF sc r
  else (baseF sc r).filter (fun d => (topCountrySetOf data sc tc).contains d.country)

/-- Per-record contribution to `exploded`. -/
def explF (data : List Row) (tc : Nat) (sc : Option String) (r : Row) : List ERow :=
  (filtF data tc sc r).flatMap
    (fun d => (splitDisciplines d.disciplineRaw).map
      (fun disc => { country := d.country, discipline := disc, gender := d.gender }))

/-- Per-record contribution to `finalRows`. -/
def finF (data : List Row) (tc td : Nat) (sc : Option String) (r : Row) : List ERow :=
  (explF data tc sc r).filter
    (fun d => (topDiscSetOf data tc td sc).contains d.discipline)

/-- Per-record contribution to the `linksMap` key stream. -/
def contF (data : List Row) (tc td : Nat) (sc : Option String) (r : Row) : List String :=
  (finF data tc td sc r).flatMap contribKeys

/-! ### Bar-free labels and tier prefixes -/

/-- A sanitized record none of whose fields contains a bar. -/
def goodRow (r : CRow) : Prop :=
  barFree r.country ∧ barFree r.disciplineRaw ∧ barFree r.gender

instance (r : CRow) : Decidable (goodRow r) := by
  unfold goodRow; infer_instance

/-- Input data whose sanitized fields never contain the `addLink` separator
character; the graph invariants hold on such inputs. -/
def goodData (data : List Row) : Prop := ∀ r ∈ cleanedRows data, goodRow r

instance (data : List Row) : Decidable (goodData data) := by
  unfold goodData; infer_instance

/-- Adjacent-pairs sortedness of a label list, in the lexicographic order. -/
def sortedLabels : List String → Bool
  | [] => true
  | [_] => true
  | a :: b :: r => labelLe a b && sortedLabels (b :: r)

/-- A record whose country field is missing or blank after trimming. -/
def blankCountry (r : Row) : Prop :=
  r.country = none ∨ jsTrim (r.country.getD "") = ""

instance (r : Row) : Decidable (blankCountry r) := by
  unfold blankCountry; infer_instance

/-- The key stream fed into `linksMap`: the two composite keys of every final
row, in row order. -/
def contribsOf (data : List Row) (tc td : Nat) (sc : Option String) : List String :=
  (finalRowsOf data tc td sc).flatMap contribKeys

theorem consHead_prepGroup (c : Char) (s : List Char) (r : List (List Char)) :
    consHead c (prepGroup s r) = prepGroup (c :: s) r := by
  cases r <;> rfl

theorem splitOnBarsL_ne_nil (l : List Char) : splitOnBarsL l ≠ [] := by
  rw [splitOnBarsL.eq_def]
  split
  · simp
  · simp
  · rename_i c cs _
    cases h : splitOnBarsL cs <;> simp [consHead]

theorem notMemCons_head {c d : Char} {cs : List Char} (h : d ∉ c :: cs) : c ≠ d :=
  fun e => h (e ▸ List.mem_cons_self c cs)

theorem notMemCons_tail {c d : Char} {cs : List Char} (h : d ∉ c :: cs) : d ∉ cs :=
  fun m => h (List.mem_cons_of_mem c m)

theorem splitOnBarsL_cons_ne (c : Char) (cs : List Char) (h : c ≠ '|') :
    splitOnBarsL (c :: cs) = consHead c (splitOnBarsL cs) := by
  rw [splitOnBarsL.eq_def]
  split
  · simp_all
  · rename_i heq
    exact absurd (List.cons.injEq .. ▸ heq).1 h
  · rename_i heq
    injection heq with e1 e2
    subst e1; subst e2
    rfl

theorem splitOnBarsL_bars (rest : List Char) :
    splitOnBarsL ('|' :: '|' :: '|' :: rest) = [] :: splitOnBarsL rest := rfl

theorem splitOnBarsL_noBar (l : List Char) (h : '|' ∉ l) : splitOnBarsL l = [l] := by
  induction l with
  | nil => rfl
  | cons c cs ih =>
    rw [splitOnBarsL_cons_ne c cs (notMemCons_head h), ih (notMemCons_tail h)]
    rfl

theorem splitOnBarsL_prepend (s u : List Char) (h : '|' ∉ s) :
    splitOnBarsL (s ++ u) = prepGroup s (splitOnBarsL u) := by
  induction s with
  | nil =>
    cases hu : splitOnBarsL u with
    | nil => exact absurd hu (splitOnBarsL_ne_nil u)
    | cons a as => simp [prepGroup, hu]
  | cons c cs ih =>
    rw [List.cons_append, splitOnBarsL_cons_ne c (cs ++ u) (notMemCons_head h),
        ih (notMemCons_tail h), consHead_prepGroup]

theorem splitOnBarsL_key (s u : List Char) (h : '|' ∉ s) :
    splitOnBarsL (s ++ '|' :: '|' :: '|' :: u) = s :: splitOnBarsL u := by
  rw [splitOnBarsL_prepend s _ h, splitOnBarsL_bars, prepGroup, List.append_nil]

theorem mkKey_data (s t : String) :
    (mkKey s t).data = s.data ++ '|' :: '|' :: '|' :: t.data := by
  show (s ++ barsStr ++ t).data = _
  have : (s ++ barsStr ++ t).data = s.data ++ barsStr.data ++ t.data := rfl
  rw [this, List.append_assoc]
  rfl

theorem splitKey_mkKey (s t : String) (hs : barFree s) (ht : barFree t) :
    splitKey (mkKey s t) = (s, t) := by
  unfold splitKey
  rw [mkKey_data, splitOnBarsL_key s.data t.data hs, splitOnBarsL_noBar t.data ht]
  rfl


/-! ### First-occurrence lists and occurrence counts -/

theorem mem_firstOccs (a : String) (l : List String) : a ∈ firstOccs l ↔ a ∈ l := by
  induction l with
  | nil => simp [firstOccs]
  | cons x xs ih =>
    by_cases hax : a = x
    · subst hax; simp [firstOccs]
    · simp [firstOccs, hax, List.mem_filter, ih]

theorem nodup_firstOccs (l : List String) : (firstOccs l).Nodup := by
  induction l with
  | nil => simp [firstOccs]
  | cons x xs ih =>
    refine List.Nodup.cons ?_ (ih.filter _)
    intro hx
    exact absurd (List.of_mem_filter hx) (by simp)

theorem firstOccs_filter (p : String → Bool) (l : List String) :
    firstOccs (l.filter p) = (firstOccs l).filter p := by
  induction l with
  | nil => rfl
  | cons x xs ih =>
    have swap : ∀ b, (p b && decide (b ≠ x)) = (decide (b ≠ x) && p b) :=
      fun b => Bool.and_comm _ _
    by_cases hp : p x = true
    · rw [List.filter_cons_of_pos hp]
      show x :: (firstOccs (xs.filter p)).filter (fun y => y ≠ x)
          = (x :: (firstOccs xs).filter (fun y => y ≠ x)).filter p
      rw [List.filter_cons_of_pos hp, ih, List.filter_filter, List.filter_filter,
          List.filter_congr (fun b _ => swap b)]
    · rw [List.filter_cons_of_neg hp]
      show firstOccs (xs.filter p)
          = (x :: (firstOccs xs).filter (fun y => y ≠ x)).filter p
      rw [List.filter_cons_of_neg hp, ih, List.filter_filter]
      refine (List.filter_congr ?_).symm
      intro b _
      by_cases hbx : b = x
      · subst hbx
        simp [hp]
      · simp [hbx]

theorem countOcc_nil (a : String) : countOcc a [] = 0 := rfl

theorem countOcc_cons (a x : String) (l : List String) :
    countOcc a (x :: l) = (if x = a then 1 else 0) + countOcc a l := by
  by_cases h : x = a <;> simp [countOcc, List.filter_cons, h, Nat.add_comm]

theorem countOcc_append (a : String) (l₁ l₂ : List String) :
    countOcc a (l₁ ++ l₂) = countOcc a l₁ + countOcc a l₂ := by
  simp [countOcc, List.filter_append]

theorem countOcc_eq_zero (a : String) (l : List String) (h : a ∉ l) :
    countOcc a l = 0 := by
  induction l with
  | nil => rfl
  | cons x xs ih =>
    rw [countOcc_cons, if_neg (fun e => h (List.mem_cons.mpr (Or.inl e.symm))),
        ih (fun m => h (List.mem_cons_of_mem x m))]


theorem firstOccs_append (xs ys : List String) :
    firstOccs (xs ++ ys)
      = firstOccs xs ++ firstOccs (ys.filter (fun a => decide (a ∉ xs))) := by
  induction xs with
  | nil =>
    simp only [List.nil_append, firstOccs]
    rw [List.filter_congr (fun b _ => by simp : ∀ b ∈ ys, decide (b ∉ ([] : List String)) = true),
        List.filter_true]
  | cons x xs ih =>
    show x :: (firstOccs (xs ++ ys)).filter (fun y => y ≠ x)
        = x :: (firstOccs xs).filter (fun y => y ≠ x) ++ _
    rw [ih, List.filter_append, ← firstOccs_filter, ← firstOccs_filter,
        List.filter_filter]
    have : ∀ b ∈ ys,
        (decide (b ≠ x) && decide (b ∉ xs)) = decide (b ∉ x :: xs) := by
      intro b _
      by_cases h1 : b = x <;> by_cases h2 : b ∈ xs <;> simp [h1, h2]
    rw [List.filter_congr this]
    rfl

theorem filter_self_not_mem (xs : List String) :
    xs.filter (fun a => decide (a ∉ xs)) = [] := by
  rw [List.filter_eq_nil_iff]
  intro a ha
  simp [ha]

theorem firstOccs_flatMap_double {α : Type} (f : α → List String) (l : List α) :
    firstOccs (l.flatMap (fun r => f r ++ f r)) = firstOccs (l.flatMap f) := by
  induction l with
  | nil => rfl
  | cons r l ih =>
    rw [List.flatMap_cons, List.flatMap_cons, List.append_assoc,
        firstOccs_append, firstOccs_append, List.filter_append,
        filter_self_not_mem, List.nil_append, firstOccs_filter, firstOccs_filter,
        ih]

theorem countOcc_flatMap_double {α : Type} (a : String) (f : α → List String)
    (l : List α) :
    countOcc a (l.flatMap (fun r => f r ++ f r)) = 2 * countOcc a (l.flatMap f) := by
  induction l with
  | nil => rfl
  | cons r l ih =>
    rw [List.flatMap_cons, List.flatMap_cons, countOcc_append, countOcc_append,
        countOcc_append, ih]
    omega

/-! ### Characterisation of the `addLink` accumulator -/

theorem bump1_pos (m : List (String × Nat)) (k : String)
    (h : m.any (fun p => p.1 == k) = true) :
    bump1 m k = m.map (fun p => if p.1 == k then (p.1, p.2 + 1) else p) := by
  simp [bump1, h]

theorem bump1_neg (m : List (String × Nat)) (k : String)
    (h : m.any (fun p => p.1 == k) = false) :
    bump1 m k = m ++ [(k, 1)] := by
  simp [bump1, h]

theorem anyKey_map_upd (m : List (String × Nat)) (k k' : String) :
    (m.map (fun p => if p.1 == k then (p.1, p.2 + 1) else p)).any
        (fun p => p.1 == k')
      = m.any (fun p => p.1 == k') := by
  induction m with
  | nil => rfl
  | cons q m ih =>
    rw [List.map_cons, List.any_cons, List.any_cons, ih]
    congr 1
    by_cases hq : q.1 == k
    · rw [if_pos hq]
    · rw [if_neg hq]

theorem firstOccs_cons (x : String) (xs : List String) :
    firstOccs (x :: xs) = x :: (firstOccs xs).filter (fun y => y ≠ x) := rfl

/-- The full shape of folding `addLink`-style bumps over a key stream: pairs
already in the map get the stream's occurrence count added; new keys are
appended in first-seen order, each carrying its occurrence count. -/
theorem foldl_bump1_char (ks : List String) :
    ∀ m : List (String × Nat),
      List.foldl bump1 m ks
        = m.map (fun kv => (kv.1, kv.2 + countOcc kv.1 ks)) ++
          (firstOccs (ks.filter
            (fun k => !(m.any (fun p => p.1 == k))))).map
              (fun k => (k, countOcc k ks)) := by
  induction ks with
  | nil =>
    intro m
    simp [countOcc_nil, firstOccs]
  | cons k ks ih =>
    intro m
    rw [List.foldl_cons]
    by_cases h : m.any (fun p => p.1 == k) = true
    · have hupd : ∀ k' ∈ ks,
          (!(m.map (fun p => if p.1 == k then (p.1, p.2 + 1) else p)).any
              (fun p => p.1 == k'))
            = (!m.any (fun p => p.1 == k')) := by
        intro k' _
        rw [anyKey_map_upd]
      rw [bump1_pos m k h, ih, List.map_map, List.filter_congr hupd,
          List.filter_cons_of_neg (by simp [h])]
      congr 1
      · refine List.map_congr_left ?_
        intro kv _
        by_cases hk : kv.1 = k
        · show (fun kv => (kv.1, kv.2 + countOcc kv.1 ks))
              (if kv.1 == k then (kv.1, kv.2 + 1) else kv)
            = (kv.1, kv.2 + countOcc kv.1 (k :: ks))
          rw [if_pos (by simp [hk]), countOcc_cons, if_pos hk.symm]
          show (kv.1, kv.2 + 1 + countOcc kv.1 ks)
              = (kv.1, kv.2 + (1 + countOcc kv.1 ks))
          rw [Nat.add_assoc]
        · show (fun kv => (kv.1, kv.2 + countOcc kv.1 ks))
              (if kv.1 == k then (kv.1, kv.2 + 1) else kv)
            = (kv.1, kv.2 + countOcc kv.1 (k :: ks))
          rw [if_neg (by simp [hk]), countOcc_cons,
              if_neg (fun e => hk e.symm), Nat.zero_add]
      · refine List.map_congr_left ?_
        intro k' hk'
        have hmem := List.of_mem_filter ((mem_firstOccs _ _).mp hk')
        have hne : k' ≠ k := by
          intro e
          rw [e] at hmem
          simp [h] at hmem
        rw [countOcc_cons, if_neg (fun e => hne e.symm), Nat.zero_add]
    · have h' : m.any (fun p => p.1 == k) = false := Bool.eq_false_iff.mpr h
      have hnkeys : ∀ kv ∈ m, kv.1 ≠ k := by
        intro kv hkv e
        have ht : m.any (fun p => p.1 == k) = true :=
          List.any_eq_true.mpr ⟨kv, hkv, by simp [e]⟩
        rw [ht] at h'
        exact Bool.noConfusion h'
      have hstep : ∀ k' ∈ ks,
          (!(m ++ [(k, 1)]).any (fun p => p.1 == k'))
            = ((!m.any (fun p => p.1 == k')) && !(k == k')) := by
        intro k' _
        simp [List.any_append, Bool.not_or]
      have hff : ks.filter
            (fun k' => (!m.any (fun p => p.1 == k')) && !(k == k'))
          = (ks.filter (fun k' => !m.any (fun p => p.1 == k'))).filter
              (fun y => y ≠ k) := by
        rw [List.filter_filter]
        refine List.filter_congr ?_
        intro k' _
        by_cases e : k' = k
        · subst e
          simp
        · have e' : ¬ k = k' := fun hh => e hh.symm
          cases hm : m.any (fun p => p.1 == k') <;> simp [e, e', hm]
      rw [bump1_neg m k h', ih, List.map_append,
          List.filter_cons_of_pos (by simp [h']),
          List.filter_congr hstep, hff, firstOccs_filter, firstOccs_cons,
          List.map_cons, List.map_cons, List.map_nil, countOcc_cons, if_pos rfl,
          List.append_assoc, List.singleton_append]
      congr 1
      · refine List.map_congr_left ?_
        intro kv hkv
        rw [countOcc_cons, if_neg (fun e => hnkeys kv hkv e.symm), Nat.zero_add]
      congr 1
      refine List.map_congr_left ?_
      intro k' hk'
      have hne : k' ≠ k := by
        have := List.of_mem_filter hk'
        simpa using this
      rw [countOcc_cons, if_neg (fun e => hne e.symm), Nat.zero_add]


theorem foldl_double_bump (rows : List ERow) :
    ∀ m : List (String × Nat),
      rows.foldl (fun m r =>
          bump1 (bump1 m (mkKey (cLab r) (dLab r))) (mkKey (dLab r) (gLab r))) m
        = List.foldl bump1 m (rows.flatMap contribKeys) := by
  induction rows with
  | nil => intro m; rfl
  | cons r rows ih =>
    intro m
    rw [List.foldl_cons, List.flatMap_cons, List.foldl_append, ih]
    rfl

theorem linksMapOf_eq_rollup (data : List Row) (tc td : Nat) (sc : Option String) :
    linksMapOf data tc td sc = rollupCounts (contribsOf data tc td sc) := by
  unfold linksMapOf contribsOf
  rw [foldl_double_bump, foldl_bump1_char]
  have hpred : (fun k => !(List.any ([] : List (String × Nat)) fun p => p.1 == k))
      = (fun _ : String => true) := rfl
  rw [List.map_nil, List.nil_append, hpred, List.filter_true]
  rfl

theorem rollup_keys (ks : List String) :
    (rollupCounts ks).map Prod.fst = firstOccs ks := by
  unfold rollupCounts
  rw [List.map_map]
  exact List.map_id _

theorem linksMap_keys_nodup (data : List Row) (tc td : Nat) (sc : Option String) :
    ((linksMapOf data tc td sc).map Prod.fst).Nodup := by
  rw [linksMapOf_eq_rollup, rollup_keys]
  exact nodup_firstOccs _

theorem length_eq_countOcc_add_filter (k : String) (l : List String) :
    l.length = countOcc k l + (l.filter (fun x => x ≠ k)).length := by
  induction l with
  | nil => rfl
  | cons x xs ih =>
    rw [List.length_cons, countOcc_cons, List.filter_cons]
    by_cases hx : x = k
    · rw [if_pos hx, if_neg (by simp [hx])]
      omega
    · rw [if_neg hx, if_pos (by simp [hx]), List.length_cons]
      omega

theorem countOcc_filter_pos (k : String) (P : String → Bool) (l : List String)
    (hP : P k = true) : countOcc k (l.filter P) = countOcc k l := by
  induction l with
  | nil => rfl
  | cons x xs ih =>
    rw [List.filter_cons, countOcc_cons]
    by_cases hx : x = k
    · rw [if_pos (hx ▸ hP), countOcc_cons, if_pos hx, ih]
    · by_cases hpx : P x = true
      · rw [if_pos hpx, countOcc_cons, if_neg hx, ih]
      · rw [if_neg hpx, if_neg hx, ih]
        omega

theorem rollup_cons (k : String) (ks : List String) :
    rollupCounts (k :: ks)
      = (k, countOcc k (k :: ks)) ::
          (rollupCounts ks).filter (fun kv => kv.1 ≠ k) := by
  unfold rollupCounts
  rw [firstOccs_cons, List.map_cons]
  congr 1
  rw [List.filter_map]
  have : ((firstOccs ks).filter
        ((fun kv => decide (kv.1 ≠ k)) ∘ (fun k' => (k', countOcc k' ks))))
      = (firstOccs ks).filter (fun y => y ≠ k) := by
    refine List.filter_congr ?_
    intro k' _
    rfl
  rw [this]
  refine (List.map_congr_left ?_).symm
  intro k' hk'
  have hne : k' ≠ k := by
    have := List.of_mem_filter hk'
    simpa using this
  rw [countOcc_cons, if_neg (fun e => hne e.symm), Nat.zero_add]

/-- Summing the recorded counts over any key predicate recovers the number of
stream elements satisfying it. -/
theorem sum_rollup_filter (ks : List String) :
    ∀ P : String → Bool,
      (((rollupCounts ks).filter (fun kv => P kv.1)).map (fun kv => kv.2)).sum
        = (ks.filter P).length := by
  induction ks with
  | nil => intro P; rfl
  | cons k ks ih =>
    intro P
    rw [rollup_cons, List.filter_cons, List.filter_filter]
    by_cases hP : P k = true
    · rw [if_pos (by simpa using hP), List.map_cons, List.sum_cons,
          ih (fun x => P x && decide (x ≠ k)),
          countOcc_cons, if_pos rfl,
          List.filter_cons_of_pos (by simpa using hP), List.length_cons]
      have hlen := length_eq_countOcc_add_filter k (ks.filter P)
      rw [countOcc_filter_pos k P ks hP] at hlen
      have hcomb : (ks.filter P).filter (fun x => x ≠ k)
          = ks.filter (fun a => P a && decide (a ≠ k)) := by
        rw [List.filter_filter]
        refine List.filter_congr ?_
        intro a _
        exact Bool.and_comm _ _
      rw [hcomb] at hlen
      omega
    · rw [if_neg (by simpa using hP),
          ih (fun x => P x && decide (x ≠ k)),
          List.filter_cons_of_neg (by simpa using hP)]
      congr 1
      refine List.filter_congr ?_
      intro a _
      by_cases hpa : P a = true
      · have hak : a ≠ k := fun e => hP (e ▸ hpa)
        simp [hpa, hak]
      · simp [hpa]


/-! ### Sorting and index-resolution facts -/

theorem leChars_total (a b : List Char) :
    leChars a b = true ∨ leChars b a = true := by
  induction a generalizing b with
  | nil => left; rfl
  | cons x xs ih =>
    cases b with
    | nil => right; rfl
    | cons y ys =>
      by_cases h1 : x.toNat < y.toNat
      · left; simp [leChars, h1]
      · by_cases h2 : y.toNat < x.toNat
        · right; simp [leChars, h2]
        · rcases ih ys with h | h
          · left; simp [leChars, h1, h2, h]
          · right; simp [leChars, h1, h2, h]

theorem andT {a b : Bool} (h : (a && b) = true) : a = true ∧ b = true := by
  simp at h
  exact h

theorem leChars_trans (a b c : List Char) (hab : leChars a b = true)
    (hbc : leChars b c = true) : leChars a c = true := by
  induction a generalizing b c with
  | nil => rfl
  | cons x xs ih =>
    cases b with
    | nil => exact absurd hab (by simp [leChars])
    | cons y ys =>
      cases c with
      | nil => exact absurd hbc (by simp [leChars])
      | cons z zs =>
        simp only [leChars] at hab hbc ⊢
        by_cases hxy : x.toNat < y.toNat
        · by_cases hyz : y.toNat < z.toNat
          · rw [if_pos (by omega : x.toNat < z.toNat)]
          · by_cases hzy : z.toNat < y.toNat
            · rw [if_neg hyz, if_pos hzy] at hbc
              exact absurd hbc (by simp)
            · rw [if_pos (by omega : x.toNat < z.toNat)]
        · by_cases hyx : y.toNat < x.toNat
          · rw [if_neg hxy, if_pos hyx] at hab
            exact absurd hab (by simp)
          · rw [if_neg hxy, if_neg hyx] at hab
            by_cases hyz : y.toNat < z.toNat
            · rw [if_pos (by omega : x.toNat < z.toNat)]
            · by_cases hzy : z.toNat < y.toNat
              · rw [if_neg hyz, if_pos hzy] at hbc
                exact absurd hbc (by simp)
              · rw [if_neg hyz, if_neg hzy] at hbc
                rw [if_neg (by omega : ¬ x.toNat < z.toNat),
                    if_neg (by omega : ¬ z.toNat < x.toNat)]
                exact ih ys zs hab hbc

theorem labelLe_total (s t : String) : labelLe s t = true ∨ labelLe t s = true :=
  leChars_total s.data t.data

theorem labelLe_trans (s t u : String) (h1 : labelLe s t = true)
    (h2 : labelLe t u = true) : labelLe s u = true :=
  leChars_trans s.data t.data u.data h1 h2

theorem mem_insLabel (a x : String) (l : List String) :
    a ∈ insLabel x l ↔ a = x ∨ a ∈ l := by
  induction l with
  | nil => simp [insLabel]
  | cons y ys ih =>
    by_cases h : labelLe x y
    · simp [insLabel, h]
    · simp [insLabel, h, ih]
      tauto

theorem mem_labelSort (a : String) (l : List String) :
    a ∈ labelSort l ↔ a ∈ l := by
  induction l with
  | nil => simp [labelSort]
  | cons x xs ih => simp [labelSort, mem_insLabel, ih]

theorem nodup_insLabel (x : String) (l : List String) (hl : l.Nodup)
    (hx : x ∉ l) : (insLabel x l).Nodup := by
  induction l with
  | nil => simp [insLabel]
  | cons y ys ih =>
    by_cases h : labelLe x y
    · rw [insLabel, if_pos h]
      exact List.Nodup.cons (by simpa using hx) hl
    · rw [insLabel, if_neg h]
      refine List.Nodup.cons ?_
        (ih (List.Nodup.of_cons hl) (fun m => hx (List.mem_cons_of_mem y m)))
      rw [mem_insLabel]
      rintro (e | m)
      · exact hx (e ▸ List.mem_cons_self y ys)
      · exact (List.nodup_cons.mp hl).1 m

theorem nodup_labelSort (l : List String) (hl : l.Nodup) : (labelSort l).Nodup := by
  induction l with
  | nil => simp [labelSort]
  | cons x xs ih =>
    rw [labelSort]
    refine nodup_insLabel x _ (ih (List.Nodup.of_cons hl)) ?_
    rw [mem_labelSort]
    exact (List.nodup_cons.mp hl).1

theorem sortedLabels_insLabel (x : String) (l : List String)
    (hl : sortedLabels l = true) : sortedLabels (insLabel x l) = true := by
  induction l with
  | nil => rfl
  | cons y ys ih =>
    by_cases h : labelLe x y
    · rw [insLabel, if_pos h]
      show (labelLe x y && sortedLabels (y :: ys)) = true
      rw [h, hl]
      rfl
    · rw [insLabel, if_neg h]
      have hyx : labelLe y x = true := by
        rcases labelLe_total x y with ht | ht
        · exact absurd ht h
        · exact ht
      cases ys with
      | nil =>
        show (labelLe y x && sortedLabels [x]) = true
        rw [hyx]
        rfl
      | cons z zs =>
        have hltail : sortedLabels (z :: zs) = true :=
          (andT (hl : (labelLe y z && sortedLabels (z :: zs)) = true)).2
        have := ih hltail
        rw [insLabel] at this ⊢
        by_cases hxz : labelLe x z
        · rw [if_pos hxz] at this ⊢
          show (labelLe y x && sortedLabels (x :: z :: zs)) = true
          rw [hyx, this]
          rfl
        · rw [if_neg hxz] at this ⊢
          show (labelLe y z && sortedLabels (z :: insLabel x zs)) = true
          have hyz : labelLe y z = true :=
            (andT (hl : (labelLe y z && sortedLabels (z :: zs)) = true)).1
          rw [hyz]
          have : sortedLabels (z :: insLabel x zs) = true := this
          rw [this]
          rfl

theorem sortedLabels_labelSort (l : List String) :
    sortedLabels (labelSort l) = true := by
  induction l with
  | nil => rfl
  | cons x xs ih =>
    rw [labelSort]
    exact sortedLabels_insLabel x _ ih

theorem idxOf_of_mem (name : String) (l : List String) (h : name ∈ l) :
    ∃ i, idxOf name l = some i ∧ i < l.length ∧ l.get? i = some name := by
  induction l with
  | nil => simp at h
  | cons x xs ih =>
    by_cases hx : x = name
    · exact ⟨0, by simp [idxOf, hx], by simp, by simp [hx]⟩
    · have hmem : name ∈ xs := by
        rcases List.mem_cons.mp h with e | m
        · exact absurd e.symm hx
        · exact m
      obtain ⟨i, hi, hlen, hget⟩ := ih hmem
      exact ⟨i + 1, by simp [idxOf, hx, hi], by simpa using hlen, by simpa using hget⟩

theorem idxOf_some (name : String) (l : List String) :
    ∀ i, idxOf name l = some i → i < l.length ∧ l.get? i = some name := by
  induction l with
  | nil => intro i h; exact absurd h (by simp [idxOf])
  | cons x xs ih =>
    intro i h
    by_cases hx : x = name
    · rw [idxOf, if_pos hx] at h
      cases h
      exact ⟨by simp, by simp [hx]⟩
    · rw [idxOf, if_neg hx] at h
      rcases Option.map_eq_some'.mp h with ⟨j, hj, rfl⟩
      obtain ⟨hlen, hget⟩ := ih j hj
      exact ⟨by simpa using hlen, by simpa using hget⟩



/-! ### Transport lemmas for the doubled input -/

theorem filter_flatMap {α β : Type} (l : List α) (f : α → List β) (p : β → Bool) :
    (l.flatMap f).filter p = l.flatMap (fun x => (f x).filter p) := by
  induction l with
  | nil => rfl
  | cons x xs ih => simp [List.flatMap_cons, List.filter_append, ih]

theorem ddOf_map {α β γ : Type} (f : α → List β) (g : β → γ) (l : List α) :
    (ddOf f l).map g = ddOf (fun r => (f r).map g) l := by
  unfold ddOf
  rw [List.map_flatMap]
  refine List.flatMap_congr ?_
  intro r _
  rw [List.map_append]

theorem ddOf_filter {α β : Type} (f : α → List β) (p : β → Bool) (l : List α) :
    (ddOf f l).filter p = ddOf (fun r => (f r).filter p) l := by
  unfold ddOf
  rw [filter_flatMap]
  refine List.flatMap_congr ?_
  intro r _
  rw [List.filter_append]

theorem ddOf_flatMap {α β γ : Type} (f : α → List β) (g : β → List γ) (l : List α) :
    (ddOf f l).flatMap g = ddOf (fun r => (f r).flatMap g) l := by
  unfold ddOf
  rw [List.flatMap_assoc]
  refine List.flatMap_congr ?_
  intro r _
  rw [List.flatMap_append]

theorem rollup_double {α : Type} (f : α → List String) (l : List α) :
    rollupCounts (ddOf f l)
      = (rollupCounts (l.flatMap f)).map (fun kv => (kv.1, 2 * kv.2)) := by
  unfold rollupCounts ddOf
  rw [firstOccs_flatMap_double, List.map_map]
  refine List.map_congr_left ?_
  intro k _
  show (k, countOcc k (l.flatMap fun r => f r ++ f r)) = (k, 2 * countOcc k (l.flatMap f))
  rw [countOcc_flatMap_double]

theorem insCnt_double (k : String) (v : Nat) (m : List (String × Nat)) :
    insCnt (k, 2 * v) (m.map (fun kv => (kv.1, 2 * kv.2)))
      = (insCnt (k, v) m).map (fun kv => (kv.1, 2 * kv.2)) := by
  induction m with
  | nil => rfl
  | cons q m ih =>
    by_cases h : q.2 ≤ v
    · rw [List.map_cons, insCnt, insCnt, if_pos h, if_pos (by simpa using
        (by omega : 2 * q.2 ≤ 2 * v)), List.map_cons]
      rfl
    · rw [List.map_cons, insCnt, insCnt, if_neg h,
          if_neg (by simpa using (by omega : ¬ 2 * q.2 ≤ 2 * v)),
          List.map_cons, ih]

theorem sortCnt_double (m : List (String × Nat)) :
    sortCnt (m.map (fun kv => (kv.1, 2 * kv.2)))
      = (sortCnt m).map (fun kv => (kv.1, 2 * kv.2)) := by
  induction m with
  | nil => rfl
  | cons q m ih =>
    rw [List.map_cons, sortCnt, sortCnt, ih]
    have : (q.1, 2 * q.2) = ((fun kv : String × Nat => (kv.1, 2 * kv.2)) q) := rfl
    rw [this, ← insCnt_double q.1 q.2 (sortCnt m)]

theorem topNKeys_double {α : Type} (n : Nat) (f : α → List String) (l : List α) :
    topNKeys n (ddOf f l) = topNKeys n (l.flatMap f) := by
  unfold topNKeys
  rw [rollup_double, sortCnt_double, ← List.map_take, List.map_map]
  rfl


theorem cleanedRows_present (data : List Row) :
    cleanedRows data = data.flatMap rowF := by
  unfold cleanedRows rowF
  induction data with
  | nil => rfl
  | cons r l ih => simp [List.flatMap_cons, ih]

theorem cleanedRows_double (data : List Row) :
    cleanedRows (doubleData data) = ddOf rowF data := by
  unfold cleanedRows doubleData ddOf rowF
  rw [List.map_flatMap]
  rfl

theorem baseRows_present (data : List Row) (sc : Option String) :
    baseRows data sc = data.flatMap (baseF sc) := by
  unfold baseRows baseF
  by_cases hf : focusActive sc
  · rw [if_pos hf, cleanedRows_present, filter_flatMap]
    refine List.flatMap_congr ?_
    intro r _
    rw [if_pos hf]
  · rw [if_neg hf, cleanedRows_present]
    refine List.flatMap_congr ?_
    intro r _
    rw [if_neg hf]

theorem baseRows_double (data : List Row) (sc : Option String) :
    baseRows (doubleData data) sc = ddOf (baseF sc) data := by
  unfold baseRows baseF
  by_cases hf : focusActive sc
  · rw [if_pos hf, cleanedRows_double, ddOf_filter]
    unfold ddOf
    refine List.flatMap_congr ?_
    intro r _
    simp [hf]
  · rw [if_neg hf, cleanedRows_double]
    unfold ddOf
    refine List.flatMap_congr ?_
    intro r _
    simp [hf]

theorem topCountrySet_double (data : List Row) (sc : Option String) (tc : Nat) :
    topCountrySetOf (doubleData data) sc tc = topCountrySetOf data sc tc := by
  unfold topCountrySetOf
  rw [baseRows_double, baseRows_present, ddOf_map, List.map_flatMap]
  exact topNKeys_double tc (fun r => (baseF sc r).map (·.country)) data

theorem filteredRows_present (data : List Row) (tc : Nat) (sc : Option String) :
    filteredRows data tc sc = data.flatMap (filtF data tc sc) := by
  unfold filteredRows filtF
  by_cases hf : focusActive sc
  · rw [if_pos hf, baseRows_present]
    refine List.flatMap_congr ?_
    intro r _
    rw [if_pos hf]
  · rw [if_neg hf, baseRows_present, filter_flatMap]
    refine List.flatMap_congr ?_
    intro r _
    rw [if_neg hf]

theorem filteredRows_double (data : List Row) (tc : Nat) (sc : Option String) :
    filteredRows (doubleData data) tc sc = ddOf (filtF data tc sc) data := by
  unfold filteredRows filtF
  rw [topCountrySet_double]
  by_cases hf : focusActive sc
  · rw [if_pos hf, baseRows_double]
    unfold ddOf
    refine List.flatMap_congr ?_
    intro r _
    simp [hf]
  · rw [if_neg hf, baseRows_double, ddOf_filter]
    unfold ddOf
    refine List.flatMap_congr ?_
    intro r _
    simp [hf]

theorem explodedRows_present (data : List Row) (tc : Nat) (sc : Option String) :
    explodedRows data tc sc = data.flatMap (explF data tc sc) := by
  unfold explodedRows explF
  rw [filteredRows_present, List.flatMap_assoc]

theorem explodedRows_double (data : List Row) (tc : Nat) (sc : Option String) :
    explodedRows (doubleData data) tc sc = ddOf (explF data tc sc) data := by
  unfold explodedRows explF
  rw [filteredRows_double, ddOf_flatMap]

theorem topDiscSet_double (data : List Row) (tc td : Nat) (sc : Option String) :
    topDiscSetOf (doubleData data) tc td sc = topDiscSetOf data tc td sc := by
  unfold topDiscSetOf
  rw [explodedRows_double, explodedRows_present, ddOf_map, List.map_flatMap]
  exact topNKeys_double td (fun r => (explF data tc sc r).map (·.discipline)) data

theorem finalRows_present (data : List Row) (tc td : Nat) (sc : Option String) :
    finalRowsOf data tc td sc = data.flatMap (finF data tc td sc) := by
  unfold finalRowsOf finF
  rw [explodedRows_present, filter_flatMap]

theorem finalRows_double (data : List Row) (tc td : Nat) (sc : Option String) :
    finalRowsOf (doubleData data) tc td sc = ddOf (finF data tc td sc) data := by
  unfold finalRowsOf finF
  rw [topDiscSet_double, explodedRows_double, ddOf_filter]

theorem contribs_present (data : List Row) (tc td : Nat) (sc : Option String) :
    contribsOf data tc td sc = data.flatMap (contF data tc td sc) := by
  unfold contribsOf contF
  rw [finalRows_present, List.flatMap_assoc]

theorem contribs_double (data : List Row) (tc td : Nat) (sc : Option String) :
    contribsOf (doubleData data) tc td sc = ddOf (contF data tc td sc) data := by
  unfold contribsOf contF
  rw [finalRows_double, ddOf_flatMap]

theorem linksMap_double (data : List Row) (tc td : Nat) (sc : Option String) :
    linksMapOf (doubleData data) tc td sc
      = (linksMapOf data tc td sc).map (fun kv => (kv.1, 2 * kv.2)) := by
  rw [linksMapOf_eq_rollup, linksMapOf_eq_rollup, contribs_double, contribs_present,
      rollup_double]

theorem linksNamed_double (data : List Row) (tc td : Nat) (sc : Option String) :
    linksNamedOf (doubleData data) tc td sc
      = (linksNamedOf data tc td sc).map
          (fun l => { source := l.source, target := l.target, value := 2 * l.value }) := by
  unfold linksNamedOf
  rw [linksMap_double, List.map_map, List.map_map]
  rfl


theorem barFree_append (s t : String) (hs : barFree s) (ht : barFree t) :
    barFree (s ++ t) := by
  unfold barFree at *
  intro hmem
  rw [show (s ++ t).data = s.data ++ t.data from rfl] at hmem
  rcases List.mem_append.mp hmem with h | h
  · exact hs h
  · exact ht h

theorem splitChars_chars (p : Char → Bool) (l : List Char) :
    ∀ piece ∈ splitChars p l, ∀ c ∈ piece, c ∈ l := by
  induction l with
  | nil =>
    intro piece hp c hc
    simp [splitChars] at hp
    subst hp
    simp at hc
  | cons x xs ih =>
    intro piece hp c hc
    by_cases hx : p x
    · rw [splitChars, if_pos hx] at hp
      rcases List.mem_cons.mp hp with e | m
      · subst e; simp at hc
      · exact List.mem_cons_of_mem x (ih piece m c hc)
    · rw [splitChars, if_neg hx] at hp
      cases hsp : splitChars p xs with
      | nil =>
        rw [hsp] at hp
        simp [consHead] at hp
        subst hp
        rcases List.mem_singleton.mp hc with e
        exact e ▸ List.mem_cons_self x xs
      | cons a as =>
        rw [hsp, consHead] at hp
        rcases List.mem_cons.mp hp with e | m
        · subst e
          rcases List.mem_cons.mp hc with e | m
          · exact e ▸ List.mem_cons_self x xs
          · exact List.mem_cons_of_mem x (ih a (hsp ▸ List.mem_cons_self a as) c m)
        · exact List.mem_cons_of_mem x
            (ih piece (hsp ▸ List.mem_cons_of_mem a m) c hc)

theorem jsTrimL_chars (l : List Char) : ∀ c ∈ jsTrimL l, c ∈ l := by
  intro c hc
  unfold jsTrimL at hc
  rw [List.mem_reverse] at hc
  have hc2 := (List.dropWhile_sublist wsChar).subset hc
  rw [List.mem_reverse] at hc2
  exact (List.dropWhile_sublist wsChar).subset hc2

theorem splitDisciplines_barFree (s : String) (hs : barFree s) :
    ∀ d ∈ splitDisciplines s, barFree d := by
  intro d hd
  unfold splitDisciplines at hd
  dsimp only at hd
  split at hd
  · rcases List.mem_singleton.mp hd with e
    exact e ▸ hs
  · rcases List.mem_filter.mp hd with ⟨hmem, _⟩
    rcases List.mem_map.mp hmem with ⟨piece, hpiece, rfl⟩
    intro hbar
    exact hs (splitChars_chars sepChar s.data piece hpiece '|'
      (jsTrimL_chars piece '|' hbar))

theorem splitDisciplines_ne_nil (s : String) : splitDisciplines s ≠ [] := by
  unfold splitDisciplines
  dsimp only
  split
  · simp
  · assumption

theorem barFree_cLab (r : ERow) (h : barFree r.country) : barFree (cLab r) :=
  barFree_append "C: " r.country (by decide) h

theorem barFree_dLab (r : ERow) (h : barFree r.discipline) : barFree (dLab r) :=
  barFree_append "D: " r.discipline (by decide) h

theorem barFree_gLab (r : ERow) (h : barFree r.gender) : barFree (gLab r) :=
  barFree_append "G: " r.gender (by decide) h

theorem startsC_cLab (r : ERow) : startsC (cLab r) = true := rfl

theorem startsD_dLab (r : ERow) : startsD (dLab r) = true := rfl

theorem startsG_gLab (r : ERow) : startsG (gLab r) = true := rfl

theorem startsD_cLab (r : ERow) : startsD (cLab r) = false := rfl

theorem startsD_gLab (r : ERow) : startsD (gLab r) = false := rfl

theorem startsC_dLab (r : ERow) : startsC (dLab r) = false := rfl

theorem startsC_gLab (r : ERow) : startsC (gLab r) = false := rfl

theorem startsD_of_startsC (n : String) (h : startsC n = true) :
    startsD n = false := by
  unfold startsC at h
  unfold startsD
  rw [show n.data.take 3 = ['C', ':', ' '] by simpa using h]
  rfl

theorem startsG_of_startsC (n : String) (h : startsC n = true) :
    startsG n = false := by
  unfold startsC at h
  unfold startsG
  rw [show n.data.take 3 = ['C', ':', ' '] by simpa using h]
  rfl

theorem startsG_of_startsD (n : String) (h : startsD n = true) :
    startsG n = false := by
  unfold startsD at h
  unfold startsG
  rw [show n.data.take 3 = ['D', ':', ' '] by simpa using h]
  rfl


/-! ### Membership through the pipeline stages -/

theorem mem_baseRows_sub (data : List Row) (sc : Option String) (cr : CRow)
    (h : cr ∈ baseRows data sc) : cr ∈ cleanedRows data := by
  unfold baseRows at h
  split at h
  · exact List.mem_of_mem_filter h
  · exact h

theorem mem_filteredRows_sub (data : List Row) (tc : Nat) (sc : Option String)
    (cr : CRow) (h : cr ∈ filteredRows data tc sc) : cr ∈ baseRows data sc := by
  unfold filteredRows at h
  split at h
  · exact h
  · exact List.mem_of_mem_filter h

theorem mem_explodedRows (data : List Row) (tc : Nat) (sc : Option String)
    (er : ERow) :
    er ∈ explodedRows data tc sc
      ↔ ∃ cr ∈ filteredRows data tc sc, ∃ disc ∈ splitDisciplines cr.disciplineRaw,
          er = { country := cr.country, discipline := disc, gender := cr.gender } := by
  unfold explodedRows
  rw [List.mem_flatMap]
  constructor
  · rintro ⟨cr, hcr, hmem⟩
    rcases List.mem_map.mp hmem with ⟨disc, hdisc, rfl⟩
    exact ⟨cr, hcr, disc, hdisc, rfl⟩
  · rintro ⟨cr, hcr, disc, hdisc, rfl⟩
    exact ⟨cr, hcr, List.mem_map.mpr ⟨disc, hdisc, rfl⟩⟩

theorem mem_finalRows_sub (data : List Row) (tc td : Nat) (sc : Option String)
    (er : ERow) (h : er ∈ finalRowsOf data tc td sc) :
    er ∈ explodedRows data tc sc :=
  List.mem_of_mem_filter h

theorem finalRows_good (data : List Row) (tc td : Nat) (sc : Option String)
    (hg : goodData data) :
    ∀ r ∈ finalRowsOf data tc td sc,
      barFree (cLab r) ∧ barFree (dLab r) ∧ barFree (gLab r) := by
  intro r hr
  have hexp := mem_finalRows_sub data tc td sc r hr
  rcases (mem_explodedRows data tc sc r).mp hexp with ⟨cr, hcr, disc, hdisc, rfl⟩
  have hcl : cr ∈ cleanedRows data :=
    mem_baseRows_sub data sc cr (mem_filteredRows_sub data tc sc cr hcr)
  obtain ⟨hc, hd, hgd⟩ := hg cr hcl
  exact ⟨barFree_cLab _ hc, barFree_dLab _ (splitDisciplines_barFree _ hd disc hdisc),
    barFree_gLab _ hgd⟩

theorem mem_contribs (data : List Row) (tc td : Nat) (sc : Option String)
    (k : String) :
    k ∈ contribsOf data tc td sc
      ↔ ∃ r ∈ finalRowsOf data tc td sc,
          k = mkKey (cLab r) (dLab r) ∨ k = mkKey (dLab r) (gLab r) := by
  unfold contribsOf
  rw [List.mem_flatMap]
  constructor
  · rintro ⟨r, hr, hk⟩
    rcases List.mem_cons.mp hk with e | hk2
    · exact ⟨r, hr, Or.inl e⟩
    · rcases List.mem_singleton.mp hk2 with e
      exact ⟨r, hr, Or.inr e⟩
  · rintro ⟨r, hr, e | e⟩
    · exact ⟨r, hr, e ▸ List.mem_cons_self _ _⟩
    · exact ⟨r, hr, e ▸ List.mem_cons_of_mem _ (List.mem_singleton.mpr rfl)⟩

/-- On bar-free labels the composite key splits back into its two halves. -/
theorem splitKey_cLab_dLab (r : ERow) (hc : barFree (cLab r))
    (hd : barFree (dLab r)) :
    splitKey (mkKey (cLab r) (dLab r)) = (cLab r, dLab r) :=
  splitKey_mkKey _ _ hc hd

theorem linksNamed_eq_map (data : List Row) (tc td : Nat) (sc : Option String) :
    linksNamedOf data tc td sc
      = (rollupCounts (contribsOf data tc td sc)).map
          (fun kv => { source := (splitKey kv.1).1, target := (splitKey kv.1).2,
                       value := kv.2 }) := by
  unfold linksNamedOf
  rw [linksMapOf_eq_rollup]

/-- Every named link comes from a key of the contribution stream: its endpoint
labels are the two labels of a contributing final row, and its value is the
key's occurrence count. -/
theorem mem_linksNamed_char (data : List Row) (tc td : Nat) (sc : Option String)
    (hg : goodData data) (l : NamedLink) (hl : l ∈ linksNamedOf data tc td sc) :
    ∃ r ∈ finalRowsOf data tc td sc,
      ((l.source = cLab r ∧ l.target = dLab r) ∨
        (l.source = dLab r ∧ l.target = gLab r)) ∧
      barFree l.source ∧ barFree l.target ∧
      l.value = countOcc (mkKey l.source l.target) (contribsOf data tc td sc) := by
  rw [linksNamed_eq_map] at hl
  rcases List.mem_map.mp hl with ⟨kv, hkv, rfl⟩
  unfold rollupCounts at hkv
  rcases List.mem_map.mp hkv with ⟨k, hk, rfl⟩
  have hkc : k ∈ contribsOf data tc td sc := (mem_firstOccs _ _).mp hk
  rcases (mem_contribs data tc td sc k).mp hkc with ⟨r, hr, hcase⟩
  obtain ⟨hbc, hbd, hbg⟩ := finalRows_good data tc td sc hg r hr
  rcases hcase with e | e
  · subst e
    rw [splitKey_mkKey _ _ hbc hbd]
    refine ⟨r, hr, Or.inl ⟨rfl, rfl⟩, hbc, hbd, rfl⟩
  · subst e
    rw [splitKey_mkKey _ _ hbd hbg]
    refine ⟨r, hr, Or.inr ⟨rfl, rfl⟩, hbd, hbg, rfl⟩


theorem cLab_ne_dLab (r r' : ERow) : cLab r ≠ dLab r' := by
  intro e
  have h1 := startsC_cLab r
  rw [e] at h1
  have h2 := startsD_of_startsC _ h1
  rw [startsD_dLab] at h2
  exact Bool.noConfusion h2

theorem ne_dLab_of_startsG (a : String) (r : ERow) (h : startsG a = true) :
    a ≠ dLab r := by
  intro e
  rw [e, show startsG (dLab r) = false from
    startsG_of_startsD _ (startsD_dLab r)] at h
  exact Bool.noConfusion h

theorem mkKey_inj (s t s' t' : String) (hs : barFree s) (ht : barFree t)
    (hs' : barFree s') (ht' : barFree t') (h : mkKey s t = mkKey s' t') :
    s = s' ∧ t = t' := by
  have h1 := splitKey_mkKey s t hs ht
  have h2 := splitKey_mkKey s' t' hs' ht'
  rw [h, h2] at h1
  exact ⟨(Prod.mk.injEq .. ▸ h1).1.symm, (Prod.mk.injEq .. ▸ h1).2.symm⟩

theorem countOcc_pair (key k1 k2 : String) :
    countOcc key [k1, k2]
      = (if k1 = key then 1 else 0) + (if k2 = key then 1 else 0) := by
  rw [countOcc_cons, countOcc_cons, countOcc_nil]
  omega

/-- In a bar-free row set, the occurrence count of a composite key equals the
number of rows whose corresponding label pair matches. -/
theorem countOcc_contribs (rows : List ERow) (s t : String)
    (hg : ∀ r ∈ rows, barFree (cLab r) ∧ barFree (dLab r) ∧ barFree (gLab r))
    (hs : barFree s) (ht : barFree t) :
    countOcc (mkKey s t) (rows.flatMap contribKeys)
      = (rows.filter (fun r => (cLab r == s && dLab r == t)
          || (dLab r == s && gLab r == t))).length := by
  induction rows with
  | nil => rfl
  | cons r rows ih =>
    obtain ⟨hbc, hbd, hbg⟩ := hg r (List.mem_cons_self r rows)
    have ih' := ih (fun r hr => hg r (List.mem_cons_of_mem _ hr))
    rw [List.flatMap_cons, countOcc_append, ih', List.filter_cons]
    show countOcc (mkKey s t) [mkKey (cLab r) (dLab r), mkKey (dLab r) (gLab r)] + _ = _
    rw [countOcc_pair]
    have hk1 : (mkKey (cLab r) (dLab r) = mkKey s t) ↔ (cLab r = s ∧ dLab r = t) := by
      constructor
      · intro e
        exact mkKey_inj _ _ _ _ hbc hbd hs ht e
      · rintro ⟨e1, e2⟩
        rw [e1, e2]
    have hk2 : (mkKey (dLab r) (gLab r) = mkKey s t) ↔ (dLab r = s ∧ gLab r = t) := by
      constructor
      · intro e
        exact mkKey_inj _ _ _ _ hbd hbg hs ht e
      · rintro ⟨e1, e2⟩
        rw [e1, e2]
    by_cases e1 : cLab r = s ∧ dLab r = t
    · have hnot2 : ¬ (dLab r = s ∧ gLab r = t) := by
        rintro ⟨e2, _⟩
        exact cLab_ne_dLab r r (e1.1.trans e2.symm)
      rw [if_pos (hk1.mpr e1), if_neg (fun e => hnot2 (hk2.mp e)),
          if_pos (by simp [e1.1, e1.2])]
      rw [List.length_cons]
      omega
    · by_cases e2 : dLab r = s ∧ gLab r = t
      · rw [if_neg (fun e => e1 (hk1.mp e)), if_pos (hk2.mpr e2),
            if_pos (by simp [e2.1, e2.2])]
        rw [List.length_cons]
        omega
      · rw [if_neg (fun e => e1 (hk1.mp e)), if_neg (fun e => e2 (hk2.mp e))]
        rw [if_neg (by
          simp only [Bool.or_eq_true, Bool.and_eq_true, beq_iff_eq]
          rintro (⟨a, b⟩ | ⟨a, b⟩)
          · exact e1 ⟨a, b⟩
          · exact e2 ⟨a, b⟩)]
        omega

theorem contribs_target_count (rows : List ERow)
    (hg : ∀ r ∈ rows, barFree (cLab r) ∧ barFree (dLab r) ∧ barFree (gLab r))
    (d : String) (hd : startsD d = true) :
    ((rows.flatMap contribKeys).filter (fun k => (splitKey k).2 == d)).length
      = (rows.filter (fun r => dLab r == d)).length := by
  induction rows with
  | nil => rfl
  | cons r rows ih =>
    obtain ⟨hbc, hbd, hbg⟩ := hg r (List.mem_cons_self r rows)
    have ih' := ih (fun r hr => hg r (List.mem_cons_of_mem _ hr))
    rw [List.flatMap_cons, List.filter_append, List.length_append, ih',
        List.filter_cons]
    have hsp1 : splitKey (mkKey (cLab r) (dLab r)) = (cLab r, dLab r) :=
      splitKey_mkKey _ _ hbc hbd
    have hsp2 : splitKey (mkKey (dLab r) (gLab r)) = (dLab r, gLab r) :=
      splitKey_mkKey _ _ hbd hbg
    have hg_ne : (gLab r == d) = false := by
      rw [beq_eq_false_iff_ne]
      intro e
      rw [← e, show startsD (gLab r) = false from rfl] at hd
      exact Bool.noConfusion hd
    show (List.filter (fun k => (splitKey k).2 == d)
        [mkKey (cLab r) (dLab r), mkKey (dLab r) (gLab r)]).length + _ = _
    rw [List.filter_cons, List.filter_cons, List.filter_nil]
    rw [hsp1, hsp2]
    by_cases hdd : dLab r = d
    · rw [if_pos (by simp [hdd]), if_neg (by simp [hg_ne]),
          if_pos (by simp [hdd]), List.length_cons, List.length_cons]
      simp only [List.length_nil]
      omega
    · rw [if_neg (by simp [hdd]), if_neg (by simp [hg_ne]),
          if_neg (by simp [hdd])]
      simp only [List.length_nil]
      omega

theorem contribs_source_count (rows : List ERow)
    (hg : ∀ r ∈ rows, barFree (cLab r) ∧ barFree (dLab r) ∧ barFree (gLab r))
    (d : String) (hd : startsD d = true) :
    ((rows.flatMap contribKeys).filter (fun k => (splitKey k).1 == d)).length
      = (rows.filter (fun r => dLab r == d)).length := by
  induction rows with
  | nil => rfl
  | cons r rows ih =>
    obtain ⟨hbc, hbd, hbg⟩ := hg r (List.mem_cons_self r rows)
    have ih' := ih (fun r hr => hg r (List.mem_cons_of_mem _ hr))
    rw [List.flatMap_cons, List.filter_append, List.length_append, ih',
        List.filter_cons]
    have hsp1 : splitKey (mkKey (cLab r) (dLab r)) = (cLab r, dLab r) :=
      splitKey_mkKey _ _ hbc hbd
    have hsp2 : splitKey (mkKey (dLab r) (gLab r)) = (dLab r, gLab r) :=
      splitKey_mkKey _ _ hbd hbg
    have hc_ne : (cLab r == d) = false := by
      rw [beq_eq_false_iff_ne]
      intro e
      rw [← e, show startsD (cLab r) = false from rfl] at hd
      exact Bool.noConfusion hd
    show (List.filter (fun k => (splitKey k).1 == d)
        [mkKey (cLab r) (dLab r), mkKey (dLab r) (gLab r)]).length + _ = _
    rw [List.filter_cons, List.filter_cons, List.filter_nil]
    rw [hsp1, hsp2]
    by_cases hdd : dLab r = d
    · rw [if_neg (by simp [hc_ne]), if_pos (by simp [hdd]),
          if_pos (by simp [hdd]), List.length_cons, List.length_cons]
      simp only [List.length_nil]
      omega
    · rw [if_neg (by simp [hc_ne]), if_neg (by simp [hdd]),
          if_neg (by simp [hdd])]
      simp only [List.length_nil]
      omega


/-! ### Node-sequence facts -/

theorem mem_insCnt (p q : String × Nat) (m : List (String × Nat)) :
    p ∈ insCnt q m ↔ p = q ∨ p ∈ m := by
  induction m with
  | nil => simp [insCnt]
  | cons x xs ih =>
    by_cases h : x.2 ≤ q.2
    · simp [insCnt, h]
    · simp [insCnt, h, ih]
      tauto

theorem mem_sortCnt (p : String × Nat) (m : List (String × Nat)) :
    p ∈ sortCnt m ↔ p ∈ m := by
  induction m with
  | nil => simp [sortCnt]
  | cons x xs ih => simp [sortCnt, mem_insCnt, ih]

theorem length_insCnt (q : String × Nat) (m : List (String × Nat)) :
    (insCnt q m).length = m.length + 1 := by
  induction m with
  | nil => rfl
  | cons x xs ih =>
    by_cases h : x.2 ≤ q.2
    · simp [insCnt, h]
    · simp [insCnt, h, ih]

theorem length_sortCnt (m : List (String × Nat)) :
    (sortCnt m).length = m.length := by
  induction m with
  | nil => rfl
  | cons x xs ih => simp [sortCnt, length_insCnt, ih]

theorem topNKeys_sub (n : Nat) (l : List String) :
    ∀ k ∈ topNKeys n l, k ∈ l := by
  intro k hk
  unfold topNKeys at hk
  rcases List.mem_map.mp hk with ⟨kv, hkv, rfl⟩
  have h1 : kv ∈ sortCnt (rollupCounts l) := List.take_subset n _ hkv
  have h2 : kv ∈ rollupCounts l := (mem_sortCnt _ _).mp h1
  unfold rollupCounts at h2
  rcases List.mem_map.mp h2 with ⟨k', hk', e⟩
  have : kv.1 = k' := by rw [← e]
  rw [this]
  exact (mem_firstOccs _ _).mp hk'

theorem topNKeys_ne_nil (n : Nat) (l : List String) (hl : l ≠ []) (hn : 1 ≤ n) :
    topNKeys n l ≠ [] := by
  unfold topNKeys
  intro h
  rw [List.map_eq_nil_iff, List.take_eq_nil_iff] at h
  rcases h with h | h
  · omega
  · rw [← List.length_eq_zero, length_sortCnt] at h
    unfold rollupCounts at h
    rw [List.length_map] at h
    cases hl' : l with
    | nil => exact hl hl'
    | cons x xs =>
      rw [hl', firstOccs_cons] at h
      simp at h

theorem mem_nodeNames (data : List Row) (tc td : Nat) (sc : Option String)
    (n : String) :
    n ∈ nodeNamesOf data tc td sc
      ↔ ∃ l ∈ linksNamedOf data tc td sc, n = l.source ∨ n = l.target := by
  unfold nodeNamesOf
  rw [mem_firstOccs, List.mem_flatMap]
  constructor
  · rintro ⟨l, hl, hmem⟩
    rcases List.mem_cons.mp hmem with e | hmem2
    · exact ⟨l, hl, Or.inl e⟩
    · exact ⟨l, hl, Or.inr (List.mem_singleton.mp hmem2)⟩
  · rintro ⟨l, hl, e | e⟩
    · exact ⟨l, hl, e ▸ List.mem_cons_self _ _⟩
    · exact ⟨l, hl, e ▸ List.mem_cons_of_mem _ (List.mem_singleton.mpr rfl)⟩

theorem nodes_nodup (data : List Row) (tc td : Nat) (sc : Option String) :
    (nodesOf data tc td sc).Nodup := by
  unfold nodesOf
  have hnames : (nodeNamesOf data tc td sc).Nodup := nodup_firstOccs _
  have hC := nodup_labelSort _ (hnames.filter startsC)
  have hD := nodup_labelSort _ (hnames.filter startsD)
  have hG := nodup_labelSort _ (hnames.filter startsG)
  have memC : ∀ a ∈ labelSort ((nodeNamesOf data tc td sc).filter startsC),
      startsC a = true := by
    intro a ha
    exact (List.mem_filter.mp ((mem_labelSort _ _).mp ha)).2
  have memD : ∀ a ∈ labelSort ((nodeNamesOf data tc td sc).filter startsD),
      startsD a = true := by
    intro a ha
    exact (List.mem_filter.mp ((mem_labelSort _ _).mp ha)).2
  have memG : ∀ a ∈ labelSort ((nodeNamesOf data tc td sc).filter startsG),
      startsG a = true := by
    intro a ha
    exact (List.mem_filter.mp ((mem_labelSort _ _).mp ha)).2
  rw [List.append_assoc, List.nodup_append]
  refine ⟨hC, ?_, ?_⟩
  · rw [List.nodup_append]
    refine ⟨hD, hG, ?_⟩
    intro a haD haG
    have h1 := memD a haD
    have h2 := memG a haG
    rw [startsG_of_startsD a h1] at h2
    exact Bool.noConfusion h2
  · intro a haC haDG
    have h1 := memC a haC
    rcases List.mem_append.mp haDG with h | h
    · have h2 := memD a h
      rw [startsD_of_startsC a h1] at h2
      exact Bool.noConfusion h2
    · have h2 := memG a h
      rw [startsG_of_startsC a h1] at h2
      exact Bool.noConfusion h2

theorem mem_nodesOf (data : List Row) (tc td : Nat) (sc : Option String)
    (n : String) :
    n ∈ nodesOf data tc td sc
      ↔ n ∈ nodeNamesOf data tc td sc ∧
          (startsC n = true ∨ startsD n = true ∨ startsG n = true) := by
  unfold nodesOf
  rw [List.mem_append, List.mem_append, mem_labelSort, mem_labelSort,
      mem_labelSort, List.mem_filter, List.mem_filter, List.mem_filter]
  tauto

theorem idxOf_get (l : List String) (hl : l.Nodup) :
    ∀ i n, l.get? i = some n → idxOf n l = some i := by
  induction l with
  | nil =>
    intro i n h
    simp at h
  | cons x xs ih =>
    intro i n h
    cases i with
    | zero =>
      rw [List.get?_cons_zero] at h
      injection h with h
      rw [idxOf, if_pos h]
    | succ j =>
      rw [List.get?_cons_succ] at h
      have hxn : x ≠ n := by
        intro e
        have hmem : n ∈ xs := List.get?_mem h
        exact (List.nodup_cons.mp hl).1 (e ▸ hmem)
      rw [idxOf, if_neg hxn, ih (List.Nodup.of_cons hl) j n h]
      rfl

/-- The first piece of a composite key built on a bar-free source label is
that label, whatever the target contains. -/
theorem splitKey_fst (s t : String) (hs : barFree s) :
    (splitKey (mkKey s t)).1 = s := by
  unfold splitKey
  rw [mkKey_data, splitOnBarsL_key s.data t.data hs]
  rfl

theorem focusActive_some (F : String) (hF : F ≠ "") :
    focusActive (some F) = true := by
  simp [focusActive, hF]

theorem singleton_of_nodup_all_eq (l : List String) (a : String) (hn : l.Nodup)
    (hne : l ≠ []) (hall : ∀ x ∈ l, x = a) : l = [a] := by
  cases l with
  | nil => exact absurd rfl hne
  | cons x xs =>
    have hx : x = a := hall x (List.mem_cons_self x xs)
    cases xs with
    | nil => rw [hx]
    | cons y ys =>
      have hy : y = a := hall y (List.mem_cons_of_mem x (List.mem_cons_self y ys))
      have : x ∉ y :: ys := (List.nodup_cons.mp hn).1
      exact absurd (List.mem_cons.mpr (Or.inl (hx.trans hy.symm))) this


theorem startsC_of_startsD (n : String) (h : startsD n = true) :
    startsC n = false := by
  unfold startsD at h
  unfold startsC
  rw [show n.data.take 3 = ['D', ':', ' '] by simpa using h]
  rfl

theorem startsC_of_startsG (n : String) (h : startsG n = true) :
    startsC n = false := by
  unfold startsG at h
  unfold startsC
  rw [show n.data.take 3 = ['G', ':', ' '] by simpa using h]
  rfl

theorem startsD_of_startsG (n : String) (h : startsG n = true) :
    startsD n = false := by
  unfold startsG at h
  unfold startsD
  rw [show n.data.take 3 = ['G', ':', ' '] by simpa using h]
  rfl

theorem nodes_filter_C (data : List Row) (tc td : Nat) (sc : Option String) :
    (nodesOf data tc td sc).filter startsC
      = labelSort ((nodeNamesOf data tc td sc).filter startsC) := by
  have e1 : (labelSort ((nodeNamesOf data tc td sc).filter startsC)).filter startsC
      = labelSort ((nodeNamesOf data tc td sc).filter startsC) :=
    List.filter_eq_self.mpr (fun a ha =>
      (List.mem_filter.mp ((mem_labelSort _ _).mp ha)).2)
  have e2 : (labelSort ((nodeNamesOf data tc td sc).filter startsD)).filter startsC
      = [] :=
    List.filter_eq_nil_iff.mpr (fun a ha => by
      have h := (List.mem_filter.mp ((mem_labelSort _ _).mp ha)).2
      simp [startsC_of_startsD a h])
  have e3 : (labelSort ((nodeNamesOf data tc td sc).filter startsG)).filter startsC
      = [] :=
    List.filter_eq_nil_iff.mpr (fun a ha => by
      have h := (List.mem_filter.mp ((mem_labelSort _ _).mp ha)).2
      simp [startsC_of_startsG a h])
  unfold nodesOf
  rw [List.filter_append, List.filter_append, e1, e2, e3, List.append_nil,
      List.append_nil]

theorem nodes_filter_D (data : List Row) (tc td : Nat) (sc : Option String) :
    (nodesOf data tc td sc).filter startsD
      = labelSort ((nodeNamesOf data tc td sc).filter startsD) := by
  have e1 : (labelSort ((nodeNamesOf data tc td sc).filter startsC)).filter startsD
      = [] :=
    List.filter_eq_nil_iff.mpr (fun a ha => by
      have h := (List.mem_filter.mp ((mem_labelSort _ _).mp ha)).2
      simp [startsD_of_startsC a h])
  have e2 : (labelSort ((nodeNamesOf data tc td sc).filter startsD)).filter startsD
      = labelSort ((nodeNamesOf data tc td sc).filter startsD) :=
    List.filter_eq_self.mpr (fun a ha =>
      (List.mem_filter.mp ((mem_labelSort _ _).mp ha)).2)
  have e3 : (labelSort ((nodeNamesOf data tc td sc).filter startsG)).filter startsD
      = [] :=
    List.filter_eq_nil_iff.mpr (fun a ha => by
      have h := (List.mem_filter.mp ((mem_labelSort _ _).mp ha)).2
      simp [startsD_of_startsG a h])
  unfold nodesOf
  rw [List.filter_append, List.filter_append, e1, e2, e3, List.nil_append,
      List.append_nil]

theorem nodes_filter_G (data : List Row) (tc td : Nat) (sc : Option String) :
    (nodesOf data tc td sc).filter startsG
      = labelSort ((nodeNamesOf data tc td sc).filter startsG) := by
  have e1 : (labelSort ((nodeNamesOf data tc td sc).filter startsC)).filter startsG
      = [] :=
    List.filter_eq_nil_iff.mpr (fun a ha => by
      have h := (List.mem_filter.mp ((mem_labelSort _ _).mp ha)).2
      simp [startsG_of_startsC a h])
  have e2 : (labelSort ((nodeNamesOf data tc td sc).filter startsD)).filter startsG
      = [] :=
    List.filter_eq_nil_iff.mpr (fun a ha => by
      have h := (List.mem_filter.mp ((mem_labelSort _ _).mp ha)).2
      simp [startsG_of_startsD a h])
  have e3 : (labelSort ((nodeNamesOf data tc td sc).filter startsG)).filter startsG
      = labelSort ((nodeNamesOf data tc td sc).filter startsG) :=
    List.filter_eq_self.mpr (fun a ha =>
      (List.mem_filter.mp ((mem_labelSort _ _).mp ha)).2)
  unfold nodesOf
  rw [List.filter_append, List.filter_append, e1, e2, e3, List.nil_append,
      List.nil_append]


/-- The scatter chart's field parser is where the quoted path lives: whenever
the trimmed field contains single-quoted items, it returns the single label
joining those items. -/
theorem parseDisciplinesField_quoted (v : Option String)
    (hs : jsTrim (v.getD "") ≠ "")
    (hq : (quotedItems (jsTrim (v.getD ""))).map jsTrim ≠ []) :
    parseDisciplinesField v
      = String.intercalate ", " ((quotedItems (jsTrim (v.getD ""))).map jsTrim) := by
  unfold parseDisciplinesField
  dsimp only
  rw [if_neg hs, if_pos hq]

/-! ### Claim theorems -/

/-- C8: starting unfocused, clicking a country and clicking it again clears the
focus (per the bar chart's toggle handler), and the recomputed `FlowGraph` is
identical to the graph before any toggle; recomputation itself is a pure
function of its inputs. -/
theorem c8_toggle_roundtrip (data : List Row) (tc td : Nat) (F : String) :
    sankeyGraph data tc td (toggleSelect (toggleSelect none F) F)
      = sankeyGraph data tc td none := by
  have h1 : toggleSelect none F = some F := by
    unfold toggleSelect
    rw [if_neg (by simp)]
  have h2 : toggleSelect (some F) F = none := by
    unfold toggleSelect
    rw [if_pos rfl]
  rw [h1, h2]

/-- C10: the Homework2 Sankey graph computation and the Homework3 one with
`selectedCountry = null` produce identical `FlowGraph`s on every input and
parameter setting. -/
theorem c10_hw2_eq_hw3_unfocused (data : List Row) (tc td : Nat) :
    hw2Graph data tc td = sankeyGraph data tc td none := rfl

/-- C5 counterexample: with a focus value set, `topCountries = 0` does not
yield an empty graph — the claim as stated ignores the focus branch, which
skips the top-N cutoff entirely. -/
theorem c5_counterexample :
    (sankeyGraph [⟨some "USA", some "S", some "M"⟩] 0 12 (some "USA")).nodes ≠ [] := by
  decide

/-- C5 (amended): when no focus value is active, `topCountries = 0` yields the
empty `FlowGraph` — the top-0 selection retains no country, so every stage
downstream is empty. -/
theorem c5_amended (data : List Row) (td : Nat) (sc : Option String)
    (h : focusActive sc = false) :
    sankeyGraph data 0 td sc = { nodes := [], links := [] } := by
  have htop : topCountrySetOf data sc 0 = [] := rfl
  have hfilt : filteredRows data 0 sc = [] := by
    unfold filteredRows
    rw [if_neg (by simp [h]), htop]
    refine List.filter_eq_nil_iff.mpr ?_
    intro a _
    simp
  have h1 : explodedRows data 0 sc = [] := by
    unfold explodedRows
    rw [hfilt]
    rfl
  have h2 : finalRowsOf data 0 td sc = [] := by
    unfold finalRowsOf topDiscSetOf
    rw [h1]
    rfl
  have h3 : linksNamedOf data 0 td sc = [] := by
    unfold linksNamedOf linksMapOf
    rw [h2]
    rfl
  unfold sankeyGraph nodesOf linksOf nodeNamesOf
  rw [h3]
  rfl

/-- C5 witness. -/
theorem c5_witness :
    focusActive none = false ∧
      sankeyGraph [⟨some "USA", some "S", some "M"⟩] 0 12 none
        = { nodes := [], links := [] } :=
  ⟨rfl, c5_amended _ 12 none rfl⟩

/-- C6: for a fixed input and the accumulator's first-seen-key-first
tie-break, the countries retained by the top-`N` selection include every
country retained by the top-`(N-1)` selection. -/
theorem c6_topN_monotone (data : List Row) (sc : Option String) (N : Nat)
    (hN : 1 ≤ N) :
    topCountrySetOf data sc (N - 1) ⊆ topCountrySetOf data sc N := by
  intro k hk
  unfold topCountrySetOf topNKeys at hk ⊢
  rcases List.mem_map.mp hk with ⟨kv, hkv, rfl⟩
  refine List.mem_map.mpr ⟨kv, ?_, rfl⟩
  have h1 : (sortCnt (rollupCounts ((baseRows data sc).map (·.country)))).take (N - 1)
      = ((sortCnt (rollupCounts ((baseRows data sc).map (·.country)))).take N).take
          (N - 1) := by
    rw [List.take_take, Nat.min_eq_left (by omega)]
  exact List.take_subset _ _ (h1 ▸ hkv)

/-- C6 witness. -/
theorem c6_witness :
    1 ≤ 1 ∧
      topCountrySetOf [⟨some "USA", some "S", some "M"⟩] none 0
        ⊆ topCountrySetOf [⟨some "USA", some "S", some "M"⟩] none 1 :=
  ⟨by decide, c6_topN_monotone _ none 1 (by decide)⟩

/-- C4 counterexample: the pipeline's exploder `splitDisciplines` does not
implement the claimed two-path algorithm — on a string made of two
single-quoted items separated by a comma it splits at the comma instead of
returning the single joined label the quoted path demands. -/
theorem c4_counterexample :
    quotedItems (String.mk [sqChar, 'A', sqChar, ',', ' ', sqChar, 'B', sqChar]) ≠ []
      ∧ splitDisciplines
            (String.mk [sqChar, 'A', sqChar, ',', ' ', sqChar, 'B', sqChar])
          ≠ explodeClaimTwoPath
              (String.mk [sqChar, 'A', sqChar, ',', ' ', sqChar, 'B', sqChar]) := by
  constructor
  · decide
  · decide

/-- C4 (amended): the claimed two-path algorithm describes the exploder only
on strings that contain no single-quoted substring; there the separator-split
path is exactly `splitDisciplines`.  (The quoted-items path exists only in the
scatter chart's field parser, not in the Sankey explosion.) -/
theorem c4_amended (s : String) (h : quotedItems s = []) :
    splitDisciplines s = explodeClaimTwoPath s := by
  unfold explodeClaimTwoPath
  rw [h]
  dsimp only
  rw [if_neg (by simp)]
  rfl

/-- C4 witness. -/
theorem c4_witness :
    quotedItems "Trampoline, Vault" = [] ∧
      splitDisciplines "Trampoline, Vault"
        = explodeClaimTwoPath "Trampoline, Vault" :=
  ⟨by decide, c4_amended _ (by decide)⟩


theorem clean_blank (v : Option String) (fb : String)
    (h : v = none ∨ jsTrim (v.getD "") = "") : clean v fb = fb := by
  unfold clean
  dsimp only
  rcases h with h | h
  · subst h
    rfl
  · rw [h, if_pos rfl]

theorem contains_of_mem (l : List String) (a : String) (h : a ∈ l) :
    l.contains a = true :=
  List.elem_iff.mpr h

/-- C7 counterexample: a blank-country record is not unconditionally kept — on
this input (one blank-country record, `topCountries = 0`) the sanitizer does
produce `"Unknown Country"`, yet the graph is empty: the record is dropped and
no `Unknown Country` node exists. -/
theorem c7_counterexample :
    (cleanRow ⟨none, some "S", some "M"⟩).country = "Unknown Country"
      ∧ sankeyGraph [⟨none, some "S", some "M"⟩] 0 12 none
          = { nodes := [], links := [] } := by
  constructor
  · decide
  · decide

/-- C7 (amended): a missing/blank country is sanitized to the fallback label
`"Unknown Country"` (never an error), and the record contributes a
`C: Unknown Country` node whenever the fallback label survives the country
top-N cut and one of its disciplines survives the category top-M cut. -/
theorem c7_amended (data : List Row) (tc td : Nat) (r : Row) (hr : r ∈ data)
    (hblank : blankCountry r)
    (hUC : "Unknown Country" ∈ topCountrySetOf data none tc)
    (hdisc : ∃ disc ∈ splitDisciplines (cleanRow r).disciplineRaw,
        disc ∈ topDiscSetOf data tc td none) :
    (cleanRow r).country = "Unknown Country"
      ∧ "C: Unknown Country" ∈ (sankeyGraph data tc td none).nodes := by
  have hc : (cleanRow r).country = "Unknown Country" :=
    clean_blank r.country _ hblank
  refine ⟨hc, ?_⟩
  obtain ⟨disc, hdisc1, hdisc2⟩ := hdisc
  have hcr : cleanRow r ∈ cleanedRows data := List.mem_map.mpr ⟨r, hr, rfl⟩
  have hfiltmem : cleanRow r ∈ filteredRows data tc none := by
    unfold filteredRows
    rw [if_neg (by decide)]
    refine List.mem_filter.mpr ⟨hcr, ?_⟩
    rw [hc]
    exact contains_of_mem _ _ hUC
  have her : (⟨(cleanRow r).country, disc, (cleanRow r).gender⟩ : ERow)
      ∈ explodedRows data tc none :=
    (mem_explodedRows data tc none _).mpr ⟨cleanRow r, hfiltmem, disc, hdisc1, rfl⟩
  have hfin : (⟨(cleanRow r).country, disc, (cleanRow r).gender⟩ : ERow)
      ∈ finalRowsOf data tc td none :=
    List.mem_filter.mpr ⟨her, contains_of_mem _ _ hdisc2⟩
  set er : ERow := ⟨(cleanRow r).country, disc, (cleanRow r).gender⟩ with her_def
  have hkey : mkKey (cLab er) (dLab er) ∈ contribsOf data tc td none :=
    (mem_contribs data tc td none _).mpr ⟨er, hfin, Or.inl rfl⟩
  have hkv : (mkKey (cLab er) (dLab er),
        countOcc (mkKey (cLab er) (dLab er)) (contribsOf data tc td none))
      ∈ rollupCounts (contribsOf data tc td none) :=
    List.mem_map.mpr ⟨_, (mem_firstOccs _ _).mpr hkey, rfl⟩
  have hln : (⟨(splitKey (mkKey (cLab er) (dLab er))).1,
        (splitKey (mkKey (cLab er) (dLab er))).2,
        countOcc (mkKey (cLab er) (dLab er)) (contribsOf data tc td none)⟩ : NamedLink)
      ∈ linksNamedOf data tc td none := by
    rw [linksNamed_eq_map]
    exact List.mem_map.mpr ⟨_, hkv, rfl⟩
  have hbc : barFree (cLab er) := by
    refine barFree_cLab er ?_
    show barFree er.country
    rw [her_def]
    show barFree (cleanRow r).country
    rw [hc]
    decide
  have hsrc : (splitKey (mkKey (cLab er) (dLab er))).1 = cLab er :=
    splitKey_fst _ _ hbc
  have hCname : cLab er ∈ nodeNamesOf data tc td none :=
    (mem_nodeNames data tc td none _).mpr ⟨_, hln, Or.inl hsrc.symm⟩
  have hnode : cLab er ∈ nodesOf data tc td none :=
    (mem_nodesOf data tc td none _).mpr ⟨hCname, Or.inl (startsC_cLab er)⟩
  have hname : cLab er = "C: Unknown Country" := by
    show "C: " ++ er.country = "C: Unknown Country"
    rw [show er.country = "Unknown Country" from hc]
    rfl
  rw [← hname]
  exact hnode

/-- C7 witness. -/
theorem c7_witness :
    blankCountry ⟨none, some "S", some "M"⟩
      ∧ "C: Unknown Country"
          ∈ (sankeyGraph [⟨none, some "S", some "M"⟩] 1 1 none).nodes :=
  ⟨by decide,
    (c7_amended [⟨none, some "S", some "M"⟩] 1 1 ⟨none, some "S", some "M"⟩
      (by decide) (by decide) (by decide) (by decide)).2⟩


/-- C3 counterexample: setting a focus country that matches no record leaves
the country tier empty — not "exactly one node F" as claimed. -/
theorem c3_counterexample :
    (sankeyGraph [⟨some "USA", some "S", some "M"⟩] 12 12
        (some "France")).nodes.filter startsC = [] := by
  decide

/-- C3 (amended): with a non-empty focus value `F`, the pipeline restricts the
working set to records whose sanitized country equals `F` by exact comparison
and skips the country top-N; the category top-M still runs on this restricted
set; the graph is independent of `topCountries`; and — provided some record
matches `F`, `topDisciplines ≥ 1`, and the labels involved contain no `|`
character — the country tier is exactly the single node `C: F`. -/
theorem c3_amended (data : List Row) (tc td : Nat) (F : String) (hF : F ≠ "")
    (hbF : barFree F)
    (hrec : ∃ cr ∈ cleanedRows data, cr.country = F)
    (hgood : ∀ cr ∈ cleanedRows data, cr.country = F →
        barFree cr.disciplineRaw ∧ barFree cr.gender)
    (htd : 1 ≤ td) :
    baseRows data (some F) = (cleanedRows data).filter (fun d => d.country == F)
      ∧ filteredRows data tc (some F) = baseRows data (some F)
      ∧ (∀ tc' : Nat,
          sankeyGraph data tc' td (some F) = sankeyGraph data tc td (some F))
      ∧ (sankeyGraph data tc td (some F)).nodes.filter startsC = ["C: " ++ F] := by
  have hfa : focusActive (some F) = true := focusActive_some F hF
  have hbase : baseRows data (some F)
      = (cleanedRows data).filter (fun d => d.country == F) := by
    unfold baseRows
    rw [if_pos hfa]
    rfl
  have hfilt : ∀ tc₀, filteredRows data tc₀ (some F) = baseRows data (some F) := by
    intro tc₀
    unfold filteredRows
    rw [if_pos hfa]
  have hfchar : ∀ er ∈ finalRowsOf data tc td (some F),
      er.country = F ∧ barFree (cLab er) ∧ barFree (dLab er) ∧ barFree (gLab er) := by
    intro er her
    rcases (mem_explodedRows _ _ _ _).mp
      (mem_finalRows_sub _ _ _ _ _ her) with ⟨cr, hcr, disc, hd, rfl⟩
    have hcrb : cr ∈ baseRows data (some F) := mem_filteredRows_sub _ _ _ _ hcr
    rw [hbase] at hcrb
    obtain ⟨hcrc, hceq⟩ := List.mem_filter.mp hcrb
    have hcF : cr.country = F := by simpa using hceq
    obtain ⟨hbd, hbg⟩ := hgood cr hcrc hcF
    exact ⟨hcF, barFree_cLab _ (show barFree cr.country from hcF.symm ▸ hbF),
      barFree_dLab _ (splitDisciplines_barFree _ hbd disc hd), barFree_gLab _ hbg⟩
  have hfin_tc : ∀ tc',
      finalRowsOf data tc' td (some F) = finalRowsOf data tc td (some F) := by
    intro tc'
    unfold finalRowsOf topDiscSetOf explodedRows
    rw [hfilt tc', hfilt tc]
  have hln_tc : ∀ tc',
      linksNamedOf data tc' td (some F) = linksNamedOf data tc td (some F) := by
    intro tc'
    unfold linksNamedOf linksMapOf
    rw [hfin_tc tc']
  have hnodes_tc : ∀ tc',
      nodesOf data tc' td (some F) = nodesOf data tc td (some F) := by
    intro tc'
    unfold nodesOf nodeNamesOf
    rw [hln_tc tc']
  have hgraph_tc : ∀ tc',
      sankeyGraph data tc' td (some F) = sankeyGraph data tc td (some F) := by
    intro tc'
    unfold sankeyGraph linksOf
    rw [hnodes_tc tc', hln_tc tc']
  obtain ⟨cr₀, hcr₀, hcF₀⟩ := hrec
  have hcr₀f : cr₀ ∈ filteredRows data tc (some F) := by
    rw [hfilt tc, hbase]
    exact List.mem_filter.mpr ⟨hcr₀, by simp [hcF₀]⟩
  obtain ⟨d₀, hd₀⟩ : ∃ d, d ∈ splitDisciplines cr₀.disciplineRaw := by
    cases h : splitDisciplines cr₀.disciplineRaw with
    | nil => exact absurd h (splitDisciplines_ne_nil cr₀.disciplineRaw)
    | cons a l => exact ⟨a, h ▸ List.mem_cons_self a l⟩
  have her₀ : (⟨cr₀.country, d₀, cr₀.gender⟩ : ERow)
      ∈ explodedRows data tc (some F) :=
    (mem_explodedRows _ _ _ _).mpr ⟨cr₀, hcr₀f, d₀, hd₀, rfl⟩
  have hdlist : (explodedRows data tc (some F)).map (·.discipline) ≠ [] := by
    intro h
    rw [List.map_eq_nil_iff] at h
    rw [h] at her₀
    simp at her₀
  obtain ⟨k, hk⟩ : ∃ k, k ∈ topDiscSetOf data tc td (some F) := by
    cases h : topDiscSetOf data tc td (some F) with
    | nil => exact absurd h (topNKeys_ne_nil td _ hdlist htd)
    | cons a l => exact ⟨a, h ▸ List.mem_cons_self a l⟩
  have hkl : k ∈ (explodedRows data tc (some F)).map (·.discipline) :=
    topNKeys_sub td _ k hk
  rcases List.mem_map.mp hkl with ⟨er₁, her₁, hker⟩
  have hfin₁ : er₁ ∈ finalRowsOf data tc td (some F) :=
    List.mem_filter.mpr ⟨her₁, by
      rw [show er₁.discipline = k from hker]
      exact contains_of_mem _ _ hk⟩
  obtain ⟨hcF₁, hb1, _hb2, _hb3⟩ := hfchar er₁ hfin₁
  have hln₁ : (⟨(splitKey (mkKey (cLab er₁) (dLab er₁))).1,
        (splitKey (mkKey (cLab er₁) (dLab er₁))).2,
        countOcc (mkKey (cLab er₁) (dLab er₁))
          (contribsOf data tc td (some F))⟩ : NamedLink)
      ∈ linksNamedOf data tc td (some F) := by
    rw [linksNamed_eq_map]
    refine List.mem_map.mpr ⟨_, List.mem_map.mpr
      ⟨_, (mem_firstOccs _ _).mpr
        ((mem_contribs _ _ _ _ _).mpr ⟨er₁, hfin₁, Or.inl rfl⟩), rfl⟩, rfl⟩
  have hsrc₁ : (splitKey (mkKey (cLab er₁) (dLab er₁))).1 = cLab er₁ :=
    splitKey_fst _ _ hb1
  have hCmem : cLab er₁ ∈ (nodeNamesOf data tc td (some F)).filter startsC :=
    List.mem_filter.mpr ⟨(mem_nodeNames _ _ _ _ _).mpr ⟨_, hln₁, Or.inl hsrc₁.symm⟩,
      startsC_cLab er₁⟩
  have hall : ∀ n ∈ (nodeNamesOf data tc td (some F)).filter startsC,
      n = "C: " ++ F := by
    intro n hn
    obtain ⟨hn1, hn2⟩ := List.mem_filter.mp hn
    rcases (mem_nodeNames _ _ _ _ _).mp hn1 with ⟨l, hl, he⟩
    rw [linksNamed_eq_map] at hl
    rcases List.mem_map.mp hl with ⟨kv, hkv, rfl⟩
    unfold rollupCounts at hkv
    rcases List.mem_map.mp hkv with ⟨key, hkey, rfl⟩
    rcases (mem_contribs _ _ _ _ _).mp ((mem_firstOccs _ _).mp hkey)
      with ⟨r, hr, hcase⟩
    obtain ⟨hrF, hrb1, hrb2, hrb3⟩ := hfchar r hr
    rcases hcase with e | e
    · subst e
      rw [splitKey_mkKey _ _ hrb1 hrb2] at he
      rcases he with e | e
      · rw [e]
        show cLab r = "C: " ++ F
        unfold cLab
        rw [hrF]
      · rw [e] at hn2
        rw [show startsC (dLab r) = false from rfl] at hn2
        exact Bool.noConfusion hn2
    · subst e
      rw [splitKey_mkKey _ _ hrb2 hrb3] at he
      rcases he with e | e
      · rw [e] at hn2
        rw [show startsC (dLab r) = false from rfl] at hn2
        exact Bool.noConfusion hn2
      · rw [e] at hn2
        rw [show startsC (gLab r) = false from rfl] at hn2
        exact Bool.noConfusion hn2
  have hsing : (nodeNamesOf data tc td (some F)).filter startsC = ["C: " ++ F] := by
    refine singleton_of_nodup_all_eq _ _ ((nodup_firstOccs _).filter _) ?_ hall
    intro h
    rw [h] at hCmem
    simp at hCmem
  refine ⟨hbase, hfilt tc, hgraph_tc, ?_⟩
  show (nodesOf data tc td (some F)).filter startsC = ["C: " ++ F]
  rw [nodes_filter_C, hsing]
  rfl

/-- C3 witness. -/
theorem c3_witness :
    ("USA" : String) ≠ ""
      ∧ (sankeyGraph [⟨some "USA", some "S", some "M"⟩] 0 1
            (some "USA")).nodes.filter startsC = ["C: " ++ "USA"] :=
  ⟨by decide,
    (c3_amended [⟨some "USA", some "S", some "M"⟩] 0 1 "USA" (by decide)
      (by decide) (by decide) (by decide) (by decide)).2.2.2⟩


theorem contrib_key_good (data : List Row) (tc td : Nat) (sc : Option String)
    (hg : goodData data) (k : String) (hk : k ∈ contribsOf data tc td sc) :
    ∃ s t, k = mkKey s t ∧ barFree s ∧ barFree t ∧ splitKey k = (s, t) := by
  rcases (mem_contribs _ _ _ _ _).mp hk with ⟨r, hr, e | e⟩ <;>
    obtain ⟨h1, h2, h3⟩ := finalRows_good data tc td sc hg r hr
  · exact ⟨cLab r, dLab r, e, h1, h2, e ▸ splitKey_mkKey _ _ h1 h2⟩
  · exact ⟨dLab r, gLab r, e, h2, h3, e ▸ splitKey_mkKey _ _ h2 h3⟩

/-- C2 counterexample: a country label containing the reserved separator
`|||` corrupts the key round trip, and the same (source,target) pair appears
twice in `linksNamed`. -/
theorem c2_counterexample :
    ¬ ((linksNamedOf [⟨some "a", some "b", some "M"⟩,
          ⟨some "a|||D: b", some "q", some "M"⟩] 2 2 none).map
        (fun l => (l.source, l.target))).Nodup := by
  decide

/-- C2 (amended): provided no sanitized label contains a bar character, each
(source,target) pair appears at most once, each weight counts exactly the
contributing exploded records of that pair, and doubling the input multiset
doubles every weight without creating or destroying pairs. -/
theorem c2_amended (data : List Row) (tc td : Nat) (sc : Option String)
    (hg : goodData data) :
    ((linksNamedOf data tc td sc).map (fun l => (l.source, l.target))).Nodup
      ∧ (∀ l ∈ linksNamedOf data tc td sc,
          l.value = ((finalRowsOf data tc td sc).filter
            (fun r => (cLab r == l.source && dLab r == l.target)
              || (dLab r == l.source && gLab r == l.target))).length)
      ∧ linksNamedOf (doubleData data) tc td sc
          = (linksNamedOf data tc td sc).map
              (fun l => { source := l.source, target := l.target,
                          value := 2 * l.value }) := by
  refine ⟨?_, ?_, linksNamed_double data tc td sc⟩
  · rw [linksNamed_eq_map, List.map_map]
    unfold rollupCounts
    rw [List.map_map]
    refine List.Nodup.map_on ?_ (nodup_firstOccs _)
    intro k1 h1 k2 h2 he
    obtain ⟨s1, t1, ek1, _, _, hsk1⟩ :=
      contrib_key_good data tc td sc hg k1 ((mem_firstOccs _ _).mp h1)
    obtain ⟨s2, t2, ek2, _, _, hsk2⟩ :=
      contrib_key_good data tc td sc hg k2 ((mem_firstOccs _ _).mp h2)
    have h1' : ((splitKey k1).1, (splitKey k1).2)
        = ((splitKey k2).1, (splitKey k2).2) := he
    have hs : s1 = s2 := by
      have hfst := congrArg Prod.fst h1'
      rw [hsk1, hsk2] at hfst
      exact hfst
    have ht : t1 = t2 := by
      have hsnd := congrArg Prod.snd h1'
      rw [hsk1, hsk2] at hsnd
      exact hsnd
    rw [ek1, ek2, hs, ht]
  · intro l hl
    rcases mem_linksNamed_char data tc td sc hg l hl with
      ⟨r, hr, _, hbs, hbt, hval⟩
    rw [hval]
    show countOcc (mkKey l.source l.target)
        ((finalRowsOf data tc td sc).flatMap contribKeys) = _
    exact countOcc_contribs (finalRowsOf data tc td sc) l.source l.target
      (finalRows_good data tc td sc hg) hbs hbt

/-- C2 witness. -/
theorem c2_witness :
    goodData [⟨some "USA", some "S", some "M"⟩]
      ∧ ((linksNamedOf [⟨some "USA", some "S", some "M"⟩] 1 1 none).map
          (fun l => (l.source, l.target))).Nodup :=
  ⟨by decide, (c2_amended [⟨some "USA", some "S", some "M"⟩] 1 1 none (by decide)).1⟩

/-- C9 counterexample: with a country label containing `|||`, a corrupted
country→category edge gives the category node `D: y` one unit of inflow and
no outflow — flow is not conserved on arbitrary inputs. -/
theorem c9_counterexample :
    (((linksNamedOf [⟨some "x|||D: y", some "q", some "M"⟩] 1 1 none).filter
        (fun l => l.target == "D: y")).map (fun l => l.value)).sum = 1
      ∧ (((linksNamedOf [⟨some "x|||D: y", some "q", some "M"⟩] 1 1 none).filter
          (fun l => l.source == "D: y")).map (fun l => l.value)).sum = 0 := by
  constructor
  · decide
  · decide

/-- C9 (amended): provided no sanitized label contains a bar character, every
category-tier node conserves flow: the total weight of edges entering a
`D: …` label equals the total weight leaving it, both being the number of
final rows carrying that discipline label. -/
theorem c9_conservation (data : List Row) (tc td : Nat) (sc : Option String)
    (hg : goodData data) (d : String) (hd : startsD d = true) :
    (((linksNamedOf data tc td sc).filter (fun l => l.target == d)).map
        (fun l => l.value)).sum
      = (((linksNamedOf data tc td sc).filter (fun l => l.source == d)).map
          (fun l => l.value)).sum := by
  rw [linksNamed_eq_map, List.filter_map, List.filter_map, List.map_map,
      List.map_map]
  have e1 : ((fun l : NamedLink => l.target == d) ∘
      (fun kv : String × Nat =>
        ({ source := (splitKey kv.1).1, target := (splitKey kv.1).2,
           value := kv.2 } : NamedLink)))
      = (fun kv : String × Nat => (splitKey kv.1).2 == d) := rfl
  have e2 : ((fun l : NamedLink => l.source == d) ∘
      (fun kv : String × Nat =>
        ({ source := (splitKey kv.1).1, target := (splitKey kv.1).2,
           value := kv.2 } : NamedLink)))
      = (fun kv : String × Nat => (splitKey kv.1).1 == d) := rfl
  have e3 : ((fun l : NamedLink => l.value) ∘
      (fun kv : String × Nat =>
        ({ source := (splitKey kv.1).1, target := (splitKey kv.1).2,
           value := kv.2 } : NamedLink)))
      = (fun kv : String × Nat => kv.2) := rfl
  rw [e1, e2, e3,
      sum_rollup_filter (contribsOf data tc td sc)
        (fun k => (splitKey k).2 == d),
      sum_rollup_filter (contribsOf data tc td sc)
        (fun k => (splitKey k).1 == d)]
  show ((contribsOf data tc td sc).filter (fun k => (splitKey k).2 == d)).length
      = ((contribsOf data tc td sc).filter (fun k => (splitKey k).1 == d)).length
  unfold contribsOf
  rw [contribs_target_count (finalRowsOf data tc td sc)
        (finalRows_good data tc td sc hg) d hd,
      contribs_source_count (finalRowsOf data tc td sc)
        (finalRows_good data tc td sc hg) d hd]

/-- C9 witness. -/
theorem c9_witness :
    goodData [⟨some "USA", some "S", some "M"⟩]
      ∧ (((linksNamedOf [⟨some "USA", some "S", some "M"⟩] 1 1 none).filter
            (fun l => l.target == "D: S")).map (fun l => l.value)).sum
          = (((linksNamedOf [⟨some "USA", some "S", some "M"⟩] 1 1 none).filter
              (fun l => l.source == "D: S")).map (fun l => l.value)).sum :=
  ⟨by decide, c9_conservation [⟨some "USA", some "S", some "M"⟩] 1 1 none
    (by decide) "D: S" (by decide)⟩


/-- C1 counterexample: a country label ending in a bar corrupts the `|||` key
split, producing an edge whose endpoint label is missing from the node
sequence; its target index resolves to nothing, so edge indices are not always
valid positions in `nodes`. -/
theorem c1_counterexample :
    ∃ il ∈ (sankeyGraph [⟨some "a|", some "x", some "M"⟩] 1 1 none).links,
      il.target = none := by
  decide

set_option maxHeartbeats 1600000 in
/-- C1 (amended): provided no sanitized label contains a bar character, the
output graph satisfies the claimed shape: the node sequence has no duplicates
and is the sorted country tier, then the sorted category tier, then the sorted
subgroup tier, drawn exactly from the edges' endpoint labels; every edge's
indices are the positions of its endpoint labels (hence valid); and every node
position is referenced by at least one edge. -/
theorem c1_amended (data : List Row) (tc td : Nat) (sc : Option String)
    (hg : goodData data) :
    (sankeyGraph data tc td sc).nodes.Nodup
      ∧ (sankeyGraph data tc td sc).nodes
          = (sankeyGraph data tc td sc).nodes.filter startsC
            ++ (sankeyGraph data tc td sc).nodes.filter startsD
            ++ (sankeyGraph data tc td sc).nodes.filter startsG
      ∧ sortedLabels ((sankeyGraph data tc td sc).nodes.filter startsC) = true
      ∧ sortedLabels ((sankeyGraph data tc td sc).nodes.filter startsD) = true
      ∧ sortedLabels ((sankeyGraph data tc td sc).nodes.filter startsG) = true
      ∧ (∀ n ∈ (sankeyGraph data tc td sc).nodes,
          ∃ l ∈ linksNamedOf data tc td sc, n = l.source ∨ n = l.target)
      ∧ (∀ l ∈ linksNamedOf data tc td sc,
          l.source ∈ (sankeyGraph data tc td sc).nodes
            ∧ l.target ∈ (sankeyGraph data tc td sc).nodes)
      ∧ (sankeyGraph data tc td sc).links
          = (linksNamedOf data tc td sc).map
              (fun nl =>
                { source := idxOf nl.source (sankeyGraph data tc td sc).nodes,
                  target := idxOf nl.target (sankeyGraph data tc td sc).nodes,
                  value := nl.value })
      ∧ (∀ nl ∈ linksNamedOf data tc td sc,
          (idxOf nl.source (sankeyGraph data tc td sc).nodes).bind
              (sankeyGraph data tc td sc).nodes.get? = some nl.source
            ∧ (idxOf nl.target (sankeyGraph data tc td sc).nodes).bind
                (sankeyGraph data tc td sc).nodes.get? = some nl.target)
      ∧ (∀ il ∈ (sankeyGraph data tc td sc).links,
          (∃ i < (sankeyGraph data tc td sc).nodes.length, il.source = some i)
            ∧ ∃ j < (sankeyGraph data tc td sc).nodes.length, il.target = some j)
      ∧ (∀ i < (sankeyGraph data tc td sc).nodes.length,
          ∃ il ∈ (sankeyGraph data tc td sc).links,
            il.source = some i ∨ il.target = some i) := by
  have hend : ∀ l ∈ linksNamedOf data tc td sc,
      l.source ∈ nodesOf data tc td sc ∧ l.target ∈ nodesOf data tc td sc := by
    intro l hl
    rcases mem_linksNamed_char data tc td sc hg l hl with
      ⟨r, _hr, hcase, _hbs, _hbt, _⟩
    have hsmem : l.source ∈ nodeNamesOf data tc td sc :=
      (mem_nodeNames _ _ _ _ _).mpr ⟨l, hl, Or.inl rfl⟩
    have htmem : l.target ∈ nodeNamesOf data tc td sc :=
      (mem_nodeNames _ _ _ _ _).mpr ⟨l, hl, Or.inr rfl⟩
    rcases hcase with ⟨es, et⟩ | ⟨es, et⟩
    · exact ⟨(mem_nodesOf _ _ _ _ _).mpr ⟨hsmem,
          Or.inl (by rw [es]; exact startsC_cLab r)⟩,
        (mem_nodesOf _ _ _ _ _).mpr ⟨htmem,
          Or.inr (Or.inl (by rw [et]; exact startsD_dLab r))⟩⟩
    · exact ⟨(mem_nodesOf _ _ _ _ _).mpr ⟨hsmem,
          Or.inr (Or.inl (by rw [es]; exact startsD_dLab r))⟩,
        (mem_nodesOf _ _ _ _ _).mpr ⟨htmem,
          Or.inr (Or.inr (by rw [et]; exact startsG_gLab r))⟩⟩
  refine ⟨nodes_nodup data tc td sc, ?_, ?_, ?_, ?_, ?_, hend, rfl, ?_, ?_, ?_⟩
  · show nodesOf data tc td sc
        = (nodesOf data tc td sc).filter startsC
          ++ (nodesOf data tc td sc).filter startsD
          ++ (nodesOf data tc td sc).filter startsG
    rw [nodes_filter_C, nodes_filter_D, nodes_filter_G]
    rfl
  · show sortedLabels ((nodesOf data tc td sc).filter startsC) = true
    rw [nodes_filter_C]
    exact sortedLabels_labelSort _
  · show sortedLabels ((nodesOf data tc td sc).filter startsD) = true
    rw [nodes_filter_D]
    exact sortedLabels_labelSort _
  · show sortedLabels ((nodesOf data tc td sc).filter startsG) = true
    rw [nodes_filter_G]
    exact sortedLabels_labelSort _
  · intro n hn
    exact (mem_nodeNames _ _ _ _ _).mp ((mem_nodesOf _ _ _ _ _).mp hn).1
  · intro nl hnl
    obtain ⟨hs, ht⟩ := hend nl hnl
    obtain ⟨i, hi, _, hgi⟩ := idxOf_of_mem nl.source _ hs
    obtain ⟨j, hj, _, hgj⟩ := idxOf_of_mem nl.target _ ht
    constructor
    · show (idxOf nl.source (nodesOf data tc td sc)).bind _ = _
      rw [hi]
      exact hgi
    · show (idxOf nl.target (nodesOf data tc td sc)).bind _ = _
      rw [hj]
      exact hgj
  · intro il hil
    have hil' : il ∈ (linksNamedOf data tc td sc).map
        (fun nl =>
          ({ source := idxOf nl.source (nodesOf data tc td sc),
             target := idxOf nl.target (nodesOf data tc td sc),
             value := nl.value } : IdxLink)) := hil
    rcases List.mem_map.mp hil' with ⟨nl, hnl, rfl⟩
    obtain ⟨hs, ht⟩ := hend nl hnl
    obtain ⟨i, hi, hleni, _⟩ := idxOf_of_mem nl.source _ hs
    obtain ⟨j, hj, hlenj, _⟩ := idxOf_of_mem nl.target _ ht
    exact ⟨⟨i, hleni, hi⟩, ⟨j, hlenj, hj⟩⟩
  · intro i hi
    have hget : (nodesOf data tc td sc).get? i
        = some ((nodesOf data tc td sc).get ⟨i, hi⟩) := List.get?_eq_get hi
    set n := (nodesOf data tc td sc).get ⟨i, hi⟩ with hn_def
    have hnmem : n ∈ nodesOf data tc td sc := List.get_mem _ _ _
    obtain ⟨l, hl, hcase⟩ :=
      (mem_nodeNames _ _ _ _ _).mp ((mem_nodesOf _ _ _ _ _).mp hnmem).1
    refine ⟨{ source := idxOf l.source (nodesOf data tc td sc),
              target := idxOf l.target (nodesOf data tc td sc),
              value := l.value }, List.mem_map.mpr ⟨l, hl, rfl⟩, ?_⟩
    have hidx : idxOf n (nodesOf data tc td sc) = some i :=
      idxOf_get _ (nodes_nodup data tc td sc) i n hget
    rcases hcase with e | e
    · exact Or.inl (show idxOf l.source (nodesOf data tc td sc) = some i from
        e ▸ hidx)
    · exact Or.inr (show idxOf l.target (nodesOf data tc td sc) = some i from
        e ▸ hidx)

/-- C1 witness. -/
theorem c1_witness :
    goodData [⟨some "USA", some "S", some "M"⟩]
      ∧ (sankeyGraph [⟨some "USA", some "S", some "M"⟩] 1 1 none).nodes.Nodup :=
  ⟨by decide, (c1_amended [⟨some "USA", some "S", some "M"⟩] 1 1 none (by decide)).1⟩

end Sankey
